import Mathlib

/-!
Shallow embedding of the tdoc-cli documentation CLI core: the permalink
codec (`generatePermalink` in src/markdown/helper.ts and `parsePermalink`
in src/markdown/cmd_parse_md.ts), the alias path resolver
(`processPathWithMap` in src/markdown/helper.ts) and the alias-map
generator (`scanDirectories`, `readExistingMap`, `generatePathMap` in
src/markdown/cmd_generate_map.ts), together with proofs settling the
specification's claims about them.

JavaScript strings are modelled as `List Char`; the wall-clock `Date`
input is modelled as an explicit record of its observable getters; the
random UUID is modelled as an explicit input string.
-/

namespace TdocCli

/-! ### Digit characters and digit strings -/

/-- Character for digit value `n` (0–15) as produced by JavaScript
`toString(radix)`: `0`–`9` then lowercase `a`–`f`. -/
def jsDigitChar (n : Nat) : Char :=
  if n < 10 then Char.ofNat (48 + n) else Char.ofNat (87 + n)

/-- Hexadecimal value of a character, accepting `0-9`, `a-f` and `A-F`
(the character classes accepted by JavaScript `BigInt`/`parseInt` hex
parsing); `none` for every other character. -/
def hexCharVal? (c : Char) : Option Nat :=
  if 48 ≤ c.toNat ∧ c.toNat ≤ 57 then some (c.toNat - 48)
  else if 97 ≤ c.toNat ∧ c.toNat ≤ 102 then some (c.toNat - 87)
  else if 65 ≤ c.toNat ∧ c.toNat ≤ 70 then some (c.toNat - 55)
  else none

/-- Decimal digit test (`0`–`9`). -/
def isDecDigit (c : Char) : Bool := 48 ≤ c.toNat ∧ c.toNat ≤ 57

/-- Lowercase-hexadecimal character test (`0`–`9`, `a`–`f`). -/
def isLowerHexChar (c : Char) : Bool :=
  (48 ≤ c.toNat ∧ c.toNat ≤ 57) ∨ (97 ≤ c.toNat ∧ c.toNat ≤ 102)

/-- Little-endian digits of `n` in base `b`, with explicit fuel (the fuel
is consumed once per digit; any fuel of at least the digit count gives the
true digit list). -/
def digitsRevFuel (b : Nat) : Nat → Nat → List Nat
  | 0, _ => []
  | f + 1, n => if n = 0 then [] else n % b :: digitsRevFuel b f (n / b)

/-- Little-endian digits of `n` in base `b` (fuel `n` always suffices). -/
def natDigitsRev (b n : Nat) : List Nat := digitsRevFuel b n n

/-- JavaScript `toString(b)` on a non-negative integer: big-endian digit
characters, `"0"` for zero. -/
def natToBase (b n : Nat) : List Char :=
  if n = 0 then ['0'] else ((natDigitsRev b n).map jsDigitChar).reverse

/-- Decimal rendering, as used for `BigInt.prototype.toString()` and for
template-literal interpolation of date fields. -/
def natToDec (n : Nat) : List Char := natToBase 10 n

/-- Lowercase hexadecimal rendering (`toString(16)`). -/
def natToHex (n : Nat) : List Char := natToBase 16 n

/-- Positional value of a big-endian digit-character string in base `b`
under the character valuation `v`. -/
def valFold (b : Nat) (v : Char → Nat) (l : List Char) : Nat :=
  l.foldl (fun a c => b * a + v c) 0

/-- Decimal character valuation (total; exact on digit characters). -/
def decCharVal (c : Char) : Nat := c.toNat - 48

/-- Value of a big-endian decimal digit string.  Models `BigInt(s)` and
`parseInt(s)` on strings that consist of decimal digits only (every
string this model is applied to is such a rendering). -/
def decVal (l : List Char) : Nat := valFold 10 decCharVal l

/-- Total hex character valuation (exact on hex digit characters). -/
def hexCharVal (c : Char) : Nat := (hexCharVal? c).getD 0

/-- `BigInt('0x' + s)`: `none` when `s` is empty or contains a non-hex
character (`BigInt` throws a `SyntaxError` there, which the decoder's
`try`/`catch` turns into trying the next candidate length), otherwise the
positional hexadecimal value. -/
def hexVal? (l : List Char) : Option Nat :=
  if l = [] ∨ ¬ (∀ c ∈ l, (hexCharVal? c).isSome) then none
  else some (valFold 16 hexCharVal l)

/-- JavaScript `padStart(k, c)`. -/
def padStart (k : Nat) (c : Char) (l : List Char) : List Char :=
  List.replicate (k - l.length) c ++ l

/-- JavaScript `padEnd(k, c)`. -/
def padEnd (k : Nat) (c : Char) (l : List Char) : List Char :=
  l ++ List.replicate (k - l.length) c

/-! ### Lemmas about digit strings -/

theorem digitsRevFuel_eq_digits (b : Nat) (hb : 2 ≤ b) :
    ∀ f n, n ≤ f → digitsRevFuel b f n = Nat.digits b n := by
  intro f
  induction f with
  | zero =>
    intro n hn
    interval_cases n
    simp [digitsRevFuel]
  | succ f ih =>
    intro n hn
    by_cases h0 : n = 0
    · subst h0; simp [digitsRevFuel]
    · have hpos : 0 < n := Nat.pos_of_ne_zero h0
      have hdiv : n / b < n := Nat.div_lt_self hpos (by omega)
      rw [digitsRevFuel, if_neg h0, ih (n / b) (by omega),
        ← Nat.digits_def' (by omega : 1 < b) hpos]

theorem natDigitsRev_eq (b n : Nat) (hb : 2 ≤ b) :
    natDigitsRev b n = Nat.digits b n :=
  digitsRevFuel_eq_digits b hb n n le_rfl

theorem natToBase_eq (b n : Nat) (hb : 2 ≤ b) (hn : n ≠ 0) :
    natToBase b n = ((Nat.digits b n).map jsDigitChar).reverse := by
  rw [natToBase, if_neg hn, natDigitsRev_eq b n hb]

theorem natToBase_length (b n : Nat) (hb : 2 ≤ b) (hn : n ≠ 0) :
    (natToBase b n).length = (Nat.digits b n).length := by
  rw [natToBase_eq b n hb hn]; simp

/-- Exact digit-count from power bounds. -/
theorem digits_length_eq (b n k : Nat) (hb : 1 < b)
    (h1 : b ^ k ≤ n) (h2 : n < b ^ (k + 1)) :
    (Nat.digits b n).length = k + 1 := by
  have hn : n ≠ 0 := by
    have : 0 < b ^ k := Nat.pow_pos (by omega : 0 < b)
    omega
  rw [Nat.digits_len b n hb hn, Nat.log_eq_of_pow_le_of_lt_pow h1 h2]

theorem digits_length_le (b n k : Nat) (hb : 1 < b) (h : n < b ^ k) :
    (Nat.digits b n).length ≤ k := by
  by_cases hn : n = 0
  · subst hn; simp
  · rw [Nat.digits_len b n hb hn]
    have := (Nat.lt_pow_iff_log_lt hb hn).mp h
    omega

theorem lt_pow_of_digits_length_le (b n k : Nat) (hb : 1 < b)
    (h : (Nat.digits b n).length ≤ k) : n < b ^ k :=
  lt_of_lt_of_le (Nat.lt_base_pow_length_digits hb)
    (Nat.pow_le_pow_right (by omega) h)

theorem hexCharVal?_jsDigitChar {d : Nat} (h : d < 16) :
    hexCharVal? (jsDigitChar d) = some d := by
  interval_cases d <;> rfl

theorem decCharVal_jsDigitChar {d : Nat} (h : d < 10) :
    decCharVal (jsDigitChar d) = d := by
  interval_cases d <;> rfl

theorem isDecDigit_jsDigitChar {d : Nat} (h : d < 10) :
    isDecDigit (jsDigitChar d) = true := by
  interval_cases d <;> rfl

theorem isLowerHexChar_jsDigitChar {d : Nat} (h : d < 16) :
    isLowerHexChar (jsDigitChar d) = true := by
  interval_cases d <;> rfl

theorem jsDigitChar_decCharVal {c : Char} (h : isDecDigit c = true) :
    jsDigitChar (decCharVal c) = c := by
  have h' : 48 ≤ c.toNat ∧ c.toNat ≤ 57 := by
    simpa [isDecDigit, decide_eq_true_eq] using h
  have hval : decCharVal c < 10 := by simp [decCharVal]; omega
  rw [jsDigitChar, if_pos hval]
  have : 48 + decCharVal c = c.toNat := by simp [decCharVal]; omega
  rw [this, Char.ofNat_toNat]

theorem jsDigitChar_ne_zero_char {d : Nat} (hd : d < 10) (h : d ≠ 0) :
    jsDigitChar d ≠ '0' := by
  interval_cases d <;> simp_all <;> decide

/-- Pulling one more character into a `valFold` accumulator. -/
theorem valFold_append_singleton (b : Nat) (v : Char → Nat) (l : List Char) (c : Char) :
    valFold b v (l ++ [c]) = b * valFold b v l + v c := by
  simp [valFold, List.foldl_append]

theorem valFold_cons_from (b : Nat) (v : Char → Nat) (a : Nat) (l : List Char) :
    l.foldl (fun a c => b * a + v c) a = a * b ^ l.length + valFold b v l := by
  induction l generalizing a with
  | nil => simp [valFold]
  | cons c t ih =>
    simp only [List.foldl_cons, List.length_cons, valFold]
    rw [ih, ih (b * 0 + v c)]
    ring

theorem valFold_append (b : Nat) (v : Char → Nat) (l₁ l₂ : List Char) :
    valFold b v (l₁ ++ l₂) = valFold b v l₁ * b ^ l₂.length + valFold b v l₂ := by
  rw [valFold, List.foldl_append, valFold_cons_from]
  rfl

/-- Reading a rendered digit list back as a positional value gives
`Nat.ofDigits` of the digit values. -/
theorem valFold_reverse_map (b : Nat) (v : Char → Nat) (ds : List Nat)
    (hv : ∀ d ∈ ds, v (jsDigitChar d) = d) :
    valFold b v ((ds.map jsDigitChar).reverse) = Nat.ofDigits b ds := by
  induction ds with
  | nil => simp [valFold, Nat.ofDigits]
  | cons d t ih =>
    simp only [List.map_cons, List.reverse_cons]
    rw [valFold_append_singleton, ih (fun x hx => hv x (List.mem_cons_of_mem d hx)),
      hv d (List.mem_cons_self d t), Nat.ofDigits_cons]
    ring

theorem decVal_natToDec (n : Nat) : decVal (natToDec n) = n := by
  by_cases hn : n = 0
  · subst hn; rfl
  · rw [natToDec, natToBase_eq 10 n (by omega) hn, decVal,
      valFold_reverse_map 10 decCharVal (Nat.digits 10 n)
        (fun d hd => decCharVal_jsDigitChar (Nat.digits_lt_base (by omega) hd)),
      Nat.ofDigits_digits]

theorem natToDec_all_digits (n : Nat) : ∀ c ∈ natToDec n, isDecDigit c = true := by
  by_cases hn : n = 0
  · subst hn; intro c hc; simp [natToDec, natToBase] at hc; subst hc; rfl
  · rw [natToDec, natToBase_eq 10 n (by omega) hn]
    intro c hc
    simp only [List.mem_reverse, List.mem_map] at hc
    obtain ⟨d, hd, rfl⟩ := hc
    exact isDecDigit_jsDigitChar (Nat.digits_lt_base (by omega) hd)

theorem natToDec_ne_nil (n : Nat) : natToDec n ≠ [] := by
  by_cases hn : n = 0
  · subst hn; simp [natToDec, natToBase]
  · rw [natToDec, natToBase_eq 10 n (by omega) hn]
    simp [Nat.digits_ne_nil_iff_ne_zero.mpr hn]

/-- The leading character of a positive number's decimal rendering is not
`'0'`. -/
theorem natToDec_head_ne_zero (n : Nat) (hn : n ≠ 0) :
    ∀ c, (natToDec n).head? = some c → c ≠ '0' := by
  rw [natToDec, natToBase_eq 10 n (by omega) hn]
  intro c hc
  have hne : Nat.digits 10 n ≠ [] := Nat.digits_ne_nil_iff_ne_zero.mpr hn
  rw [List.head?_reverse, List.getLast?_map] at hc
  obtain ⟨d, hd, hcd⟩ := Option.map_eq_some'.mp hc
  have hdlast : d = (Nat.digits 10 n).getLast hne := by
    rw [List.getLast?_eq_getLast _ hne, Option.some_inj] at hd
    exact hd.symm
  subst hcd
  exact jsDigitChar_ne_zero_char
    (Nat.digits_lt_base (by omega) (hdlast ▸ List.getLast_mem hne))
    (hdlast ▸ Nat.getLast_digit_ne_zero 10 hn)

/-- Parsing a nonempty all-digit string with nonzero leading digit and
re-rendering it gives the string back (decimal canonicity). -/
theorem natToDec_decVal (l : List Char) (hne : l ≠ [])
    (hd : ∀ c ∈ l, isDecDigit c = true)
    (hh : ∀ c, l.head? = some c → c ≠ '0') :
    natToDec (decVal l) = l := by
  classical
  set M : List Nat := (l.map decCharVal).reverse with hM
  have hMne : M ≠ [] := by simp [hM, hne]
  have hlt : ∀ d ∈ M, d < 10 := by
    intro d hdM
    simp only [hM, List.mem_reverse, List.mem_map] at hdM
    obtain ⟨c, hc, rfl⟩ := hdM
    have := hd c hc
    simp [isDecDigit, decide_eq_true_eq] at this
    simp [decCharVal]; omega
  have hlast : ∀ h : M ≠ [], M.getLast h ≠ 0 := by
    intro h
    obtain ⟨c, t, rfl⟩ := List.exists_cons_of_ne_nil hne
    have hc0 : c ≠ '0' := hh c rfl
    have hcd := hd c (List.mem_cons_self c t)
    simp only [isDecDigit, decide_eq_true_eq] at hcd
    have hq : M.getLast? = some (decCharVal c) := by
      rw [hM, List.getLast?_reverse]
      simp
    rw [List.getLast?_eq_getLast _ h, Option.some_inj] at hq
    rw [hq]
    intro hzero
    apply hc0
    have h48 : c.toNat = 48 := by simp [decCharVal] at hzero; omega
    have := congrArg Char.ofNat h48
    rwa [Char.ofNat_toNat] at this
  have hmapback : (M.map jsDigitChar).reverse = l := by
    rw [hM, List.map_reverse, List.reverse_reverse, List.map_map]
    conv_rhs => rw [← List.map_id l]
    exact List.map_congr_left fun c hc => jsDigitChar_decCharVal (hd c hc)
  have hval : decVal l = Nat.ofDigits 10 M := by
    rw [← hmapback, decVal,
      valFold_reverse_map 10 decCharVal M
        (fun d hdM => decCharVal_jsDigitChar (hlt d hdM))]
  have hdig : Nat.digits 10 (decVal l) = M := by
    rw [hval, Nat.digits_ofDigits 10 (by omega) M hlt hlast]
  have hne0 : decVal l ≠ 0 := by
    intro h0
    rw [h0, Nat.digits_zero] at hdig
    exact hMne hdig.symm
  rw [natToDec, natToBase_eq 10 _ (by omega) hne0, hdig, hmapback]

theorem natToDec_length_eq (n k : Nat) (h1 : 10 ^ k ≤ n) (h2 : n < 10 ^ (k + 1)) :
    (natToDec n).length = k + 1 := by
  have hn : n ≠ 0 := by
    have : 0 < 10 ^ k := Nat.pow_pos (by omega : 0 < 10)
    omega
  rw [natToDec, natToBase_length 10 n (by omega) hn,
    digits_length_eq 10 n k (by omega) h1 h2]

theorem hexVal?_natToHex (n : Nat) : hexVal? (natToHex n) = some n := by
  by_cases hn : n = 0
  · subst hn; rfl
  · have heq := natToBase_eq 16 n (by omega) hn
    have hall : ∀ c ∈ natToHex n, (hexCharVal? c).isSome := by
      rw [natToHex, heq]
      intro c hc
      simp only [List.mem_reverse, List.mem_map] at hc
      obtain ⟨d, hd, rfl⟩ := hc
      rw [hexCharVal?_jsDigitChar (Nat.digits_lt_base (by omega) hd)]
      rfl
    have hne : natToHex n ≠ [] := by
      rw [natToHex, heq]
      simp [Nat.digits_ne_nil_iff_ne_zero.mpr hn]
    rw [hexVal?, if_neg (by push_neg; exact ⟨hne, hall⟩)]
    rw [natToHex, heq,
      valFold_reverse_map 16 hexCharVal (Nat.digits 16 n)
        (fun d hd => by
          rw [hexCharVal, hexCharVal?_jsDigitChar (Nat.digits_lt_base (by omega) hd)]
          rfl),
      Nat.ofDigits_digits]

theorem natToHex_all_lower (n : Nat) : ∀ c ∈ natToHex n, isLowerHexChar c = true := by
  by_cases hn : n = 0
  · subst hn; intro c hc; simp [natToHex, natToBase] at hc; subst hc; rfl
  · rw [natToHex, natToBase_eq 16 n (by omega) hn]
    intro c hc
    simp only [List.mem_reverse, List.mem_map] at hc
    obtain ⟨d, hd, rfl⟩ := hc
    exact isLowerHexChar_jsDigitChar (Nat.digits_lt_base (by omega) hd)

theorem natToHex_length_le (n k : Nat) (hn : n ≠ 0) (h : n < 16 ^ k) :
    (natToHex n).length ≤ k := by
  rw [natToHex, natToBase_length 16 n (by omega) hn]
  exact digits_length_le 16 n k (by omega) h


/-! ### JavaScript `Date` field normalization

`new Date(year, monthIndex, day, hours, minutes, seconds, ms)` normalizes
out-of-range fields by exact rollover on the proleptic-Gregorian calendar
(e.g. minute 75 becomes hour+1, minute 15; day 0 is the last day of the
previous month).  The model below computes the observable getters for the
argument shapes arising in this code base: non-negative date and time
fields (they are parsed from decimal digit strings), with the millisecond
argument an arbitrary integer. -/

/-- Record of the observable `Date` getters: `getFullYear()`, `getMonth()+1`
(1-based month), `getDate()`, `getHours()`, `getMinutes()`, `getSeconds()`,
`getMilliseconds()`. -/
structure DateFields where
  year : Int
  month : Nat
  day : Nat
  hours : Nat
  minutes : Nat
  seconds : Nat
  millis : Nat
deriving DecidableEq

/-- Proleptic-Gregorian leap-year rule (as used by JavaScript `Date`). -/
def isLeapYear (y : Int) : Bool :=
  (y % 4 = 0 ∧ y % 100 ≠ 0) ∨ y % 400 = 0

/-- Days in month `m` (0-based index, 0 = January) of year `y`. -/
def daysInMonth (y : Int) (m : Nat) : Nat :=
  match m with
  | 0 => 31
  | 1 => if isLeapYear y then 29 else 28
  | 2 => 31
  | 3 => 30
  | 4 => 31
  | 5 => 30
  | 6 => 31
  | 7 => 31
  | 8 => 30
  | 9 => 31
  | 10 => 30
  | _ => 31

/-- Normalize a (year, 0-based month, day) triple whose day may lie outside
`1 ..= daysInMonth`: borrow from or carry into adjacent months.  Fuel-indexed;
each step moves the day by at least 28, so any fuel of at least `|day| + 2`
reaches the fixed point for the inputs below. -/
def fixDays : Nat → Int → Nat → Int → Int × Nat × Int
  | 0, y, m, d => (y, m, d)
  | f + 1, y, m, d =>
    if d < 1 then
      let y' := if m = 0 then y - 1 else y
      let m' := if m = 0 then 11 else m - 1
      fixDays f y' m' (d + daysInMonth y' m')
    else if (daysInMonth y m : Int) < d then
      let y' := if m = 11 then y + 1 else y
      let m' := if m = 11 then 0 else m + 1
      fixDays f y' m' (d - daysInMonth y m)
    else (y, m, d)

/-- `new Date(year, month - 1, day, hours, minutes, seconds, ms)` observable
getters.  `month` is the 1-based calendar month (the source always passes
`month - 1` as the JS month index).  Includes the JS two-digit-year rule
(years 0–99 are offset by 1900). -/
def jsMakeDate (year month day hours minutes seconds : Nat) (ms : Int) : DateFields :=
  let y0 : Int := if year ≤ 99 then 1900 + year else year
  let A : Int := y0 * 12 + ((month : Int) - 1)
  let yM : Int := A / 12
  let mIdx : Nat := (A % 12).toNat
  let timeMs : Int :=
    (hours : Int) * 3600000 + (minutes : Int) * 60000 + (seconds : Int) * 1000 + ms
  let dayCarry : Int := timeMs / 86400000
  let rem : Nat := (timeMs % 86400000).toNat
  let dTot : Int := (day : Int) + dayCarry
  let r := fixDays (dTot.natAbs + 2) yM mIdx dTot
  { year := r.1
    month := r.2.1 + 1
    day := r.2.2.toNat
    hours := rem / 3600000
    minutes := rem % 3600000 / 60000
    seconds := rem % 60000 / 1000
    millis := rem % 1000 }

/-- On in-range fields the `Date` constructor is the identity on all
getters. -/
theorem jsMakeDate_id (y mo d h mi s ms : Nat)
    (hy : 100 ≤ y) (hmo1 : 1 ≤ mo) (hmo2 : mo ≤ 12)
    (hd1 : 1 ≤ d) (hd2 : d ≤ daysInMonth (y : Int) (mo - 1))
    (hh : h ≤ 23) (hmi : mi ≤ 59) (hs : s ≤ 59) (hms : ms ≤ 999) :
    jsMakeDate y mo d h mi s (ms : Int) = ⟨(y : Int), mo, d, h, mi, s, ms⟩ := by
  rw [jsMakeDate]
  have hy99 : ¬ y ≤ 99 := by omega
  simp only [if_neg hy99]
  have hA : (y : Int) * 12 + ((mo : Int) - 1) = 12 * y + (mo - 1 : Nat) := by
    omega
  have hAdiv : ((y : Int) * 12 + ((mo : Int) - 1)) / 12 = (y : Int) := by
    rw [hA]
    omega
  have hAmod : ((y : Int) * 12 + ((mo : Int) - 1)) % 12 = ((mo - 1 : Nat) : Int) := by
    rw [hA]
    omega
  have htv : (h : Int) * 3600000 + (mi : Int) * 60000 + (s : Int) * 1000 + (ms : Int) =
      ((h * 3600000 + mi * 60000 + s * 1000 + ms : Nat) : Int) := by
    push_cast; ring
  set T : Nat := h * 3600000 + mi * 60000 + s * 1000 + ms with hT
  have hTlt : T < 86400000 := by omega
  have hdivT : ((T : Int)) / 86400000 = 0 := by omega
  have hmodT : ((T : Int)) % 86400000 = (T : Int) := by omega
  rw [htv, hdivT, hmodT, hAdiv, hAmod]
  simp only [Int.toNat_natCast, add_zero]
  have hfix : fixDays (((d : Int)).natAbs + 2) (y : Int) (mo - 1) (d : Int) =
      ((y : Int), mo - 1, (d : Int)) := by
    have : ((d : Int)).natAbs + 2 = (d + 1) + 1 := by omega
    rw [this, fixDays]
    rw [if_neg (by omega), if_neg (by omega)]
  rw [hfix]
  simp only [DateFields.mk.injEq, Int.toNat_natCast, true_and]
  omega

/-! ### Permalink encoding (`generatePermalink`, src/markdown/helper.ts) -/

/-- The observable fields of the wall-clock `Date` handed to
`generatePermalink`: `getFullYear()`, `getMonth() + 1`, `getDate()`,
`getHours()`, `getMinutes()`, `getSeconds()`, `getMilliseconds()`. -/
structure TimePoint where
  year : Nat
  month : Nat
  day : Nat
  hours : Nat
  minutes : Nat
  seconds : Nat
  millis : Nat
deriving DecidableEq

/-- The permalink prefix segment (`PERMALINK_PREFIX = "docs"`). -/
def PERMALINK_PREFIX : List Char := "docs".toList

/-- The 14-digit `YYYYMMDDHHMMSS` string (helper.ts lines 44–52): the year
via template-literal interpolation, every other field zero-padded to two
digits. -/
def timestampStr (t : TimePoint) : List Char :=
  natToDec t.year ++ padStart 2 '0' (natToDec t.month) ++
    padStart 2 '0' (natToDec t.day) ++ padStart 2 '0' (natToDec t.hours) ++
    padStart 2 '0' (natToDec t.minutes) ++ padStart 2 '0' (natToDec t.seconds)

/-- `BigInt(timestampStr)` (an all-digit string, so plain positional
valuation is exact). -/
def timestampVal (t : TimePoint) : Nat := decVal (timestampStr t)

/-- `timestampBigInt.toString(16)` (helper.ts line 56). -/
def timestampHex (t : TimePoint) : List Char := natToHex (timestampVal t)

/-- `date.getMilliseconds().toString(16).padStart(3, "0")` (line 60). -/
def millisHexStr (t : TimePoint) : List Char := padStart 3 '0' (natToHex t.millis)

/-- `remainingLength = 24 - (timestampHex.length + millisHex.length)`
(helper.ts line 67). -/
def remainingLength (t : TimePoint) : Int :=
  24 - (((timestampHex t).length : Int) + ((millisHexStr t).length : Int))

/-- The truncated timestamp hex of the overflow branch (helper.ts line 74):
`timestampHex.substring(0, timestampHex.length + remainingLength)`;
JavaScript `substring` clamps a negative end index to `0`, modelled by
`Int.toNat`. -/
def tsHexTrunc (t : TimePoint) : List Char :=
  (timestampHex t).take
    ((((timestampHex t).length : Int) + remainingLength t)).toNat

/-- The 24-character identifier together with the used UUID slice
(helper.ts lines 62–85), with the source's local bindings substituted.
`uuid` models `randomUUID()` with dashes removed, supplied as an explicit
input. -/
def encodeCore (t : TimePoint) (uuid : List Char) : List Char × List Char :=
  if remainingLength t < 0 then
    (tsHexTrunc t ++ millisHexStr t ++
       uuid.take ((24 : Int) - (((tsHexTrunc t).length : Int) +
         ((millisHexStr t).length : Int))).toNat,
     uuid.take ((24 : Int) - (((tsHexTrunc t).length : Int) +
       ((millisHexStr t).length : Int))).toNat)
  else
    ((padEnd 24 '0' (timestampHex t ++ millisHexStr t ++
        uuid.take (remainingLength t).toNat)).take 24,
     uuid.take (remainingLength t).toNat)

/-- Return value of `generatePermalink`. -/
structure PermalinkData where
  permalink : List Char
  fulluuid : List Char
  useduuid : List Char
deriving DecidableEq

/-- `generatePermalink(date, usePrefix)` (helper.ts lines 42–96). -/
def generatePermalink (t : TimePoint) (uuid : List Char) (usePrefix : Bool) : PermalinkData :=
  let core := encodeCore t uuid
  { permalink :=
      if usePrefix then '/' :: (PERMALINK_PREFIX ++ '/' :: core.1) else '/' :: core.1
    fulluuid := uuid
    useduuid := core.2 }

/-! ### Permalink decoding (`parsePermalink`, src/markdown/cmd_parse_md.ts) -/

/-- Errors thrown by `parsePermalink`: `badFormat` is
"永久链接格式不正确，应为24位十六进制数" (thrown when the stripped string is
not exactly 24 characters long) and `noTimestamp` is
"无法从永久链接中解析有效的时间戳" (no candidate length worked). -/
inductive DecodeErr where
  | badFormat
  | noTimestamp
deriving DecidableEq

/-- Whitespace skipped by JavaScript `parseInt` (the common ASCII cases;
none of them can be produced by the encoder). -/
def isJsSpace (c : Char) : Bool :=
  c = ' ' ∨ c = '\t' ∨ c = '\n' ∨ c = '\r' ∨ c = '\x0b' ∨ c = '\x0c'

/-- The sign step of `parseInt`: an optional leading `-` or `+`. -/
def jsParseSign (l1 : List Char) : Int × List Char :=
  match l1 with
  | '-' :: r => (-1, r)
  | '+' :: r => (1, r)
  | _ => (1, l1)

/-- The radix-prefix step of `parseInt(·, 16)`: an optional `0x`/`0X`. -/
def jsStripHexMark (l2 : List Char) : List Char :=
  match l2 with
  | '0' :: 'x' :: r => r
  | '0' :: 'X' :: r => r
  | _ => l2

/-- JavaScript `parseInt(s, 16)`: skip leading whitespace, read an optional
sign, drop an optional `0x`/`0X` prefix, then read the longest prefix of
hexadecimal digits; `none` models `NaN` (no digits). -/
def jsParseIntHex (l : List Char) : Option Int :=
  if (jsStripHexMark (jsParseSign (l.dropWhile isJsSpace)).2).takeWhile
      (fun c => (hexCharVal? c).isSome) = [] then none
  else
    some ((jsParseSign (l.dropWhile isJsSpace)).1 *
      (valFold 16 hexCharVal
        ((jsStripHexMark (jsParseSign (l.dropWhile isJsSpace)).2).takeWhile
          (fun c => (hexCharVal? c).isSome)) : Nat))

/-- The probe date built by the decoder from a 14-digit decimal string
(cmd_parse_md.ts lines 94–102): the six digit groups are parsed with
`parseInt` (their positional values, since they are digit characters) and
handed to `new Date(year, month - 1, day, hours, minutes, seconds)`. -/
def tempDateOf (dec : List Char) : DateFields :=
  jsMakeDate (decVal (dec.take 4)) (decVal ((dec.drop 4).take 2))
    (decVal ((dec.drop 6).take 2)) (decVal ((dec.drop 8).take 2))
    (decVal ((dec.drop 10).take 2)) (decVal ((dec.drop 12).take 2)) 0

/-- The decoder's acceptance test (lines 103–105):
`tempDate.getFullYear() === year && tempDate.getMonth() === month - 1 &&
tempDate.getDate() === day`. -/
def acceptNumeric (dec : List Char) : Prop :=
  (tempDateOf dec).year = (decVal (dec.take 4) : Int) ∧
  (tempDateOf dec).month = decVal ((dec.drop 4).take 2) ∧
  (tempDateOf dec).day = decVal ((dec.drop 6).take 2)

instance (dec : List Char) : Decidable (acceptNumeric dec) := by
  unfold acceptNumeric
  infer_instance

/-- One iteration of the timestamp-length loop (cmd_parse_md.ts lines
88–120) at candidate length `len`: `BigInt('0x' + hexStr.substring(0, len))`
(a throw is `none`), render as decimal, require exactly 14 digits, parse
the six digit groups (`parseInt` on an all-digit substring is its
positional value), build the probe date with `new Date(y, m-1, d, h, mi, s)`
and accept only if `getFullYear`/`getMonth`/`getDate` read back the parsed
year, month and day.  On acceptance, the next 3 characters are parsed with
`parseInt(·, 16)` as milliseconds and the final date object is built;
`fields = none` models the invalid date produced by a `NaN` millisecond
value (its getters are all `NaN`). -/
def tryTimestampLen (hexStr : List Char) (len : Nat) :
    Option (List Char × Option DateFields) :=
  match hexVal? (hexStr.take len) with
  | none => none
  | some v =>
    if (natToDec v).length = 14 then
      if acceptNumeric (natToDec v) then
        some (natToDec v,
          (jsParseIntHex ((hexStr.drop len).take 3)).map
            (jsMakeDate (decVal ((natToDec v).take 4))
              (decVal (((natToDec v).drop 4).take 2))
              (decVal (((natToDec v).drop 6).take 2))
              (decVal (((natToDec v).drop 8).take 2))
              (decVal (((natToDec v).drop 10).take 2))
              (decVal (((natToDec v).drop 12).take 2))))
      else none
    else none

/-- The candidate timestamp-hex lengths, longest first
(`for (let timestampLength = 12; timestampLength >= 8; timestampLength--)`). -/
def timestampLengths : List Nat := [12, 11, 10, 9, 8]

/-- `permalink.startsWith('/') ? permalink.substring(1) : permalink`
(cmd_parse_md.ts line 70). -/
def stripSlash (l : List Char) : List Char :=
  if l.head? = some '/' then l.drop 1 else l

/-- Removal of a leading `docs/` segment (cmd_parse_md.ts lines 71–73). -/
def stripDocs (l : List Char) : List Char :=
  if (PERMALINK_PREFIX ++ ['/']).isPrefixOf l then
    l.drop (PERMALINK_PREFIX.length + 1)
  else l

/-- Stripping of the leading slash and the known `docs/` segment. -/
def stripPermalink (permalink : List Char) : List Char :=
  stripDocs (stripSlash permalink)

/-- Result of `parsePermalink`: the original input, the 14-digit decimal
timestamp string, and the getters of the final date object (`none` for an
invalid date).  The remaining fields of the source interface
(`isoString`, `localString`) are renderings derived from these. -/
structure ParsedPermalink where
  originalPermalink : List Char
  timestamp : List Char
  fields : Option DateFields
deriving DecidableEq

/-- `parsePermalink(permalink)` (cmd_parse_md.ts lines 68–145): strip the
prefix, require exactly 24 characters, then try the candidate lengths
longest-first and return the first acceptance. -/
def parsePermalink (permalink : List Char) : Except DecodeErr ParsedPermalink :=
  if (stripPermalink permalink).length = 24 then
    match timestampLengths.findSome? (tryTimestampLen (stripPermalink permalink)) with
    | some r => .ok ⟨permalink, r.1, r.2⟩
    | none => .error .noTimestamp
  else .error .badFormat

/-! ### Alias path resolver (`processPathWithMap`, src/markdown/helper.ts) -/

/-- The anchor directory name (`SDOC_DIR_NAME = "sdoc"`). -/
def SDOC_DIR_NAME : List Char := "sdoc".toList

/-- Resolution failures of `processPathWithMap` (the source reports them
via `console.error` and returns `null`; the error payload records which
message was printed): `noAnchor` is "输出目录中不包含'sdoc'" and
`unmapped seg` is "路径部分'seg'没有有效的映射". -/
inductive PathErr where
  | noAnchor
  | unmapped (segment : List Char)
deriving DecidableEq

/-- `String.prototype.indexOf`: index of the first occurrence of `pat` as a
contiguous substring, `none` if there is none. -/
def indexOfSub? (pat : List Char) : List Char → Option Nat
  | [] => if pat.isPrefixOf ([] : List Char) then some 0 else none
  | c :: r =>
    if pat.isPrefixOf (c :: r) then some 0
    else (indexOfSub? pat r).map (· + 1)

/-- `String.prototype.split(sep)` for a single-character separator. -/
def splitSep (sep : Char) : List Char → List (List Char)
  | [] => [[]]
  | c :: r =>
    match splitSep sep r with
    | [] => [[]]
    | s :: ss => if c = sep then [] :: s :: ss else (c :: s) :: ss

/-- Association-list lookup keyed on the first component (models property
access on the loaded path-map object / `Map.prototype.get`). -/
def alookup (k : List Char) : List (List Char × List Char) → Option (List Char)
  | [] => none
  | p :: r => if p.1 = k then some p.2 else alookup k r

/-- The segment-mapping loop of `processPathWithMap` (helper.ts lines
329–344): keep a segment equal to `sdoc` verbatim; otherwise look the
segment up, and the branch is taken only when the property access is
truthy, so a missing key and an empty-string alias both fail with that
segment.  The first failing segment aborts the whole resolution. -/
def mapSegments (pathMap : List (List Char × List Char)) :
    List (List Char) → Except PathErr (List (List Char))
  | [] => .ok []
  | part :: rest =>
    if part = SDOC_DIR_NAME then
      (mapSegments pathMap rest).map (part :: ·)
    else
      match alookup part pathMap with
      | some v =>
        if v = [] then .error (.unmapped part)
        else (mapSegments pathMap rest).map (v :: ·)
      | none => .error (.unmapped part)

/-- `mappedParts.join('/')`. -/
def joinSlash (parts : List (List Char)) : List Char :=
  List.intercalate ['/'] parts

/-- Core of `processPathWithMap` (helper.ts lines 282–347) after the
file-system interactions (map-file existence checks and `require` are
I/O and are modelled by passing the loaded map): locate `sdoc` in the
absolute output path with `indexOf` (a substring search), fail with the
no-anchor error when absent, otherwise split the suffix from the first
occurrence on the path separator (`/` on POSIX) and map the segments. -/
def processPathCore (absDir : List Char) (pathMap : List (List Char × List Char)) :
    Except PathErr (List Char) :=
  match indexOfSub? SDOC_DIR_NAME absDir with
  | none => .error .noAnchor
  | some i => (mapSegments pathMap (splitSep '/' (absDir.drop i))).map joinSlash

/-! ### Alias-map generation (src/markdown/cmd_generate_map.ts, the
variant with the exclusion set) -/

/-- A directory tree: the names of the plain files it contains and its
named subdirectories. -/
inductive FsDir where
  | node (files : List (List Char)) (dirs : List (List Char × FsDir))

/-- `Map.prototype.set`: update the value in place if the key is present
(keeping its position in insertion order), else append. -/
def mapSet (m : List (List Char × List Char)) (k v : List Char) :
    List (List Char × List Char) :=
  match m with
  | [] => [(k, v)]
  | p :: r => if p.1 = k then (k, v) :: r else p :: mapSet r k v

/-- `scanDirectories(dirPath, basePath, excludeDirs)` (cmd_generate_map.ts):
walk the subdirectories in order; skip a subdirectory (and its whole
subtree) when its name is in `excludeDirs` or `fs.existsSync` finds a
sibling entry `name + ".md"` — a plain file or a directory of that name
alike; otherwise record `name ↦ relative path` and merge the recursive
scan, later `Map.set` calls overwriting earlier entries.  Fuel-indexed on
the recursion depth (any fuel of at least the tree height gives the real
value); `pre` is the segment path from the scan root (`path.relative`
of a descendant is the `/`-joined segment list). -/
def scanDirectories (excludeDirs : List (List Char)) :
    Nat → FsDir → List (List Char) → List (List Char × List Char)
  | 0, _, _ => []
  | f + 1, FsDir.node files dirs, pre =>
    dirs.foldl
      (fun acc p =>
        if p.1 ∈ excludeDirs then acc
        else if (p.1 ++ ".md".toList) ∈ files ∨
            (p.1 ++ ".md".toList) ∈ dirs.map Prod.fst then acc
        else
          (scanDirectories excludeDirs f p.2 (pre ++ [p.1])).foldl
            (fun a q => mapSet a q.1 q.2)
            (mapSet acc p.1 (joinSlash (pre ++ [p.1]))))
      []

/-- The depth-first visit order of the recorded `(name, relativePath)`
pairs of a scan: one pair per non-skipped subdirectory, parents before
their subtrees, siblings in directory order.  (Specification-side
companion of `scanDirectories`.) -/
def scanVisits (excludeDirs : List (List Char)) :
    Nat → FsDir → List (List Char) → List (List Char × List Char)
  | 0, _, _ => []
  | f + 1, FsDir.node files dirs, pre =>
    dirs.foldl
      (fun acc p =>
        if p.1 ∈ excludeDirs ∨ ((p.1 ++ ".md".toList) ∈ files ∨
            (p.1 ++ ".md".toList) ∈ dirs.map Prod.fst) then acc
        else
          acc ++ (p.1, joinSlash (pre ++ [p.1])) ::
            scanVisits excludeDirs f p.2 (pre ++ [p.1]))
      []

/-! ### Reading and rewriting `path-map.js`
(`readExistingMap` / `generatePathMap`, cmd_generate_map.ts) -/

/-- One attempted match of the regular expression
`"([^"]+)":\s*"([^"]+)"` anchored at the head of the string: the two
greedy character classes cannot match `"`, so they are the maximal
quote-free spans; the whitespace class is modelled by `isJsSpace`.
The match is decomposed into the stages after the name span, after the
colon-plus-whitespace, and the value span. -/
def matchEntryValue (name r4 : List Char) : Option (List Char × List Char × List Char) :=
  if r4.takeWhile (· ≠ '"') = [] then none
  else
    match r4.dropWhile (· ≠ '"') with
    | '"' :: tail => some (name, r4.takeWhile (· ≠ '"'), tail)
    | _ => none

/-- Stage after `\s*` has been skipped: expect the opening quote of the
value. -/
def matchEntryAfterColon (name r3 : List Char) : Option (List Char × List Char × List Char) :=
  match r3 with
  | '"' :: r4 => matchEntryValue name r4
  | _ => none

/-- Stage after the name span: expect `":` and then skip `\s*`. -/
def matchEntryAfterName (name r1 : List Char) : Option (List Char × List Char × List Char) :=
  match r1 with
  | '"' :: ':' :: r2 => matchEntryAfterColon name (r2.dropWhile isJsSpace)
  | _ => none

/-- The full anchored match attempt: on success returns the two capture
groups and the remainder of the string after the match. -/
def matchEntry (l : List Char) : Option (List Char × List Char × List Char) :=
  match l with
  | '"' :: r =>
    if r.takeWhile (· ≠ '"') = [] then none
    else matchEntryAfterName (r.takeWhile (· ≠ '"')) (r.dropWhile (· ≠ '"'))
  | _ => none

/-- Repeated `regex.exec` over the file content: try a match at each
position, emit the capture groups and continue after the match; fuel one
per inspected position (the content length suffices). -/
def scanEntries : Nat → List Char → List (List Char × List Char)
  | 0, _ => []
  | _ + 1, [] => []
  | f + 1, c :: r =>
    match matchEntry (c :: r) with
    | some (n, v, rest) => (n, v) :: scanEntries f rest
    | none => scanEntries f r

/-- `readExistingMap` applied to file content (the existence check and the
read are I/O; an absent or unreadable file is the empty content). -/
def readMapPairs (content : List Char) : List (List Char × List Char) :=
  scanEntries content.length content

/-- The generated header of `path-map.js` (cmd_generate_map.ts lines
133–137). -/
def pathMapHeader : List Char :=
  ("/**\n * 由tdoc m:m命令自动生成的目录映射文件\n * 用于将中文目录名映射为英文别名\n */\n\nexport default \x7b\n").toList

/-- One generated entry line (line 142): the discovered name, its alias —
the existing value when the name is already present, else the sentinel
`"default"` — and the relative path as a trailing comment. -/
def renderEntry (existing : List (List Char × List Char)) (p : List Char × List Char) :
    List Char :=
  "  \"".toList ++ p.1 ++ "\": \"".toList ++
    ((alookup p.1 existing).getD ("default".toList)) ++
    "\", // ".toList ++ p.2 ++ "\n".toList

/-- The full rewritten `path-map.js` content (`generatePathMap`, lines
132–145), from the scan result `dirMap` and the key/value pairs read from
the previous file. -/
def renderPathMap (dirMap existing : List (List Char × List Char)) : List Char :=
  pathMapHeader ++ (dirMap.map (renderEntry existing)).flatten ++ ("\x7d;\n").toList

/-! ### Encoding lemmas and claims C2, C4 -/

theorem natToHex_ne_nil (n : Nat) : natToHex n ≠ [] := by
  by_cases hn : n = 0
  · subst hn; simp [natToHex, natToBase]
  · rw [natToHex, natToBase_eq 16 n (by omega) hn]
    simp [Nat.digits_ne_nil_iff_ne_zero.mpr hn]

theorem padStart_length (k : Nat) (c : Char) (l : List Char) (h : l.length ≤ k) :
    (padStart k c l).length = k := by
  simp [padStart]; omega

theorem millisHexStr_length (t : TimePoint) (h : t.millis ≤ 999) :
    (millisHexStr t).length = 3 := by
  apply padStart_length
  by_cases h0 : t.millis = 0
  · rw [h0]; decide
  · exact natToHex_length_le t.millis 3 h0 (by omega)

theorem millisHexStr_all_lower (t : TimePoint) :
    ∀ c ∈ millisHexStr t, isLowerHexChar c = true := by
  intro c hc
  rcases List.mem_append.mp hc with h | h
  · rw [List.eq_of_mem_replicate h]; rfl
  · exact natToHex_all_lower _ c h

/-- Closed form of the overflow branch: the timestamp hex is cut to 21
characters and the entropy slice is empty. -/
theorem encodeCore_overflow (t : TimePoint) (uuid : List Char)
    (hms : t.millis ≤ 999)
    (hover : 24 < (timestampHex t).length + (millisHexStr t).length) :
    encodeCore t uuid = ((timestampHex t).take 21 ++ millisHexStr t, []) := by
  have hm3 := millisHexStr_length t hms
  have hL : 22 ≤ (timestampHex t).length := by omega
  have hneg : remainingLength t < 0 := by rw [remainingLength]; omega
  have htr : tsHexTrunc t = (timestampHex t).take 21 := by
    rw [tsHexTrunc, remainingLength]
    congr 1
    omega
  have htrlen : (tsHexTrunc t).length = 21 := by
    rw [htr, List.length_take]
    omega
  have hu : ((24 : Int) - (((tsHexTrunc t).length : Int) +
      ((millisHexStr t).length : Int))).toNat = 0 := by
    rw [htrlen, hm3]
    decide
  rw [encodeCore, if_pos hneg, hu, htr]
  simp

/-- Closed form of the in-budget branch for a 32-character entropy
string: no padding or final truncation happens. -/
theorem encodeCore_fit (t : TimePoint) (uuid : List Char)
    (hms : t.millis ≤ 999) (hulen : uuid.length = 32)
    (hfit : (timestampHex t).length + (millisHexStr t).length ≤ 24) :
    encodeCore t uuid =
      (timestampHex t ++ millisHexStr t ++
         uuid.take (24 - (timestampHex t).length - 3),
       uuid.take (24 - (timestampHex t).length - 3)) := by
  have hm3 := millisHexStr_length t hms
  have hnneg : ¬ remainingLength t < 0 := by rw [remainingLength]; omega
  have hrem : (remainingLength t).toNat = 24 - (timestampHex t).length - 3 := by
    rw [remainingLength]; omega
  have hraw : (timestampHex t ++ millisHexStr t ++
      uuid.take (24 - (timestampHex t).length - 3)).length = 24 := by
    simp only [List.length_append, List.length_take, hm3, hulen]
    omega
  rw [encodeCore, if_neg hnneg, hrem, padEnd, hraw]
  simp only [Nat.sub_self, List.replicate_zero, List.append_nil]
  rw [List.take_of_length_le (le_of_eq hraw)]

/-- Claim C2: for every input date-time (overflowing timestamps included)
and every 32-hex-digit entropy string, the identifier is exactly 24
lowercase hexadecimal characters, and the final permalink is `/` +
optional `docs/` prefix + identifier. -/
theorem c2_fixed_width (t : TimePoint) (uuid : List Char)
    (hms : t.millis ≤ 999) (hlen : uuid.length = 32)
    (hhex : ∀ c ∈ uuid, isLowerHexChar c = true) :
    (encodeCore t uuid).1.length = 24 ∧
    (∀ c ∈ (encodeCore t uuid).1, isLowerHexChar c = true) ∧
    (generatePermalink t uuid true).permalink =
      '/' :: (PERMALINK_PREFIX ++ '/' :: (encodeCore t uuid).1) ∧
    (generatePermalink t uuid false).permalink = '/' :: (encodeCore t uuid).1 := by
  have hm3 := millisHexStr_length t hms
  refine ⟨?_, ?_, rfl, rfl⟩
  · by_cases hover : 24 < (timestampHex t).length + (millisHexStr t).length
    · rw [encodeCore_overflow t uuid hms hover]
      simp only [List.length_append, List.length_take, hm3]
      omega
    · rw [encodeCore_fit t uuid hms hlen (by omega)]
      simp only [List.length_append, List.length_take, hm3, hlen]
      omega
  · by_cases hover : 24 < (timestampHex t).length + (millisHexStr t).length
    · rw [encodeCore_overflow t uuid hms hover]
      intro c hc
      rcases List.mem_append.mp hc with h | h
      · exact natToHex_all_lower _ c (List.mem_of_mem_take h)
      · exact millisHexStr_all_lower t c h
    · rw [encodeCore_fit t uuid hms hlen (by omega)]
      intro c hc
      rcases List.mem_append.mp hc with h | h
      · rcases List.mem_append.mp h with h2 | h2
        · exact natToHex_all_lower _ c h2
        · exact millisHexStr_all_lower t c h2
      · exact hhex c (List.mem_of_mem_take h)

/-- Witness for C2 at the specification's worked example. -/
theorem c2_fixed_width_witness :
    (encodeCore ⟨2025, 9, 2, 17, 30, 45, 123⟩
        ("1234567890abcdef1234567890abcdef".toList)).1.length = 24 ∧
    (∀ c ∈ (encodeCore ⟨2025, 9, 2, 17, 30, 45, 123⟩
        ("1234567890abcdef1234567890abcdef".toList)).1, isLowerHexChar c = true) ∧
    (generatePermalink ⟨2025, 9, 2, 17, 30, 45, 123⟩
        ("1234567890abcdef1234567890abcdef".toList) true).permalink =
      '/' :: (PERMALINK_PREFIX ++ '/' :: (encodeCore ⟨2025, 9, 2, 17, 30, 45, 123⟩
        ("1234567890abcdef1234567890abcdef".toList)).1) ∧
    (generatePermalink ⟨2025, 9, 2, 17, 30, 45, 123⟩
        ("1234567890abcdef1234567890abcdef".toList) false).permalink =
      '/' :: (encodeCore ⟨2025, 9, 2, 17, 30, 45, 123⟩
        ("1234567890abcdef1234567890abcdef".toList)).1 :=
  c2_fixed_width ⟨2025, 9, 2, 17, 30, 45, 123⟩ _ (by decide) (by decide) (by decide)

/-- Claim C4: when the hex timestamp plus the 3 millisecond hex digits
exceed the 24-character budget (`remaining < 0`), `generatePermalink` does
not raise an error (the encoder is total): it truncates the timestamp hex
from its tail by `|remaining|` characters (to 21), recomputes the entropy
slice from the new total (leaving it empty), concatenates
timestamp + millis + entropy in that order, and the identifier still has
exactly 24 characters. -/
theorem c4_overflow_truncation (t : TimePoint) (uuid : List Char)
    (hms : t.millis ≤ 999) (hover : remainingLength t < 0) :
    (encodeCore t uuid).1 =
      (timestampHex t).take 21 ++ millisHexStr t ++
        uuid.take ((24 : Int) - ((((timestampHex t).take 21).length : Int) +
          ((millisHexStr t).length : Int))).toNat ∧
    (encodeCore t uuid).2 = [] ∧
    (encodeCore t uuid).1.length = 24 := by
  have hm3 := millisHexStr_length t hms
  have hover' : 24 < (timestampHex t).length + (millisHexStr t).length := by
    rw [remainingLength] at hover
    omega
  have hL : 22 ≤ (timestampHex t).length := by omega
  have h21 : ((timestampHex t).take 21).length = 21 := by
    rw [List.length_take]; omega
  have hu : ((24 : Int) - ((((timestampHex t).take 21).length : Int) +
      ((millisHexStr t).length : Int))).toNat = 0 := by
    rw [h21, hm3]; decide
  rw [encodeCore_overflow t uuid hms hover']
  refine ⟨?_, rfl, ?_⟩
  · rw [hu]
    simp
  · simp only [List.length_append, h21, hm3]

/-- Witness for C4: a timestamp whose hexadecimal form has 22 digits
(year 2·10¹⁵) overflows the budget and is truncated, still yielding 24
characters and an empty entropy slice. -/
theorem c4_overflow_truncation_witness :
    (encodeCore ⟨2000000000000000, 9, 2, 17, 30, 45, 123⟩
        ("1234567890abcdef1234567890abcdef".toList)).1 =
      (timestampHex ⟨2000000000000000, 9, 2, 17, 30, 45, 123⟩).take 21 ++
        millisHexStr ⟨2000000000000000, 9, 2, 17, 30, 45, 123⟩ ++
        ("1234567890abcdef1234567890abcdef".toList).take
          ((24 : Int) - ((((timestampHex ⟨2000000000000000, 9, 2, 17, 30, 45, 123⟩).take 21).length : Int) +
            ((millisHexStr ⟨2000000000000000, 9, 2, 17, 30, 45, 123⟩).length : Int))).toNat ∧
    (encodeCore ⟨2000000000000000, 9, 2, 17, 30, 45, 123⟩
        ("1234567890abcdef1234567890abcdef".toList)).2 = [] ∧
    (encodeCore ⟨2000000000000000, 9, 2, 17, 30, 45, 123⟩
        ("1234567890abcdef1234567890abcdef".toList)).1.length = 24 :=
  c4_overflow_truncation ⟨2000000000000000, 9, 2, 17, 30, 45, 123⟩ _ (by decide) (by decide)

/-! ### Path resolver lemmas and claims C5, C7 -/

/-- The segment predicate on which the mapping loop fails: not the anchor,
and the looked-up alias is absent or the empty string (both are falsy). -/
def segmentBad (pathMap : List (List Char × List Char)) (p : List Char) : Bool :=
  !(p = SDOC_DIR_NAME : Bool) && ((alookup p pathMap).getD []).isEmpty

/-- Full characterization of the segment-mapping loop: it fails with the
first bad segment, and otherwise maps every segment (anchor kept,
non-anchor replaced by its alias). -/
theorem mapSegments_eq_find (pathMap : List (List Char × List Char)) :
    ∀ parts : List (List Char),
      mapSegments pathMap parts =
        match parts.find? (segmentBad pathMap) with
        | some p => .error (.unmapped p)
        | none =>
          .ok (parts.map fun p =>
            if p = SDOC_DIR_NAME then p else (alookup p pathMap).getD []) := by
  intro parts
  induction parts with
  | nil => rfl
  | cons p rest ih =>
    by_cases hsd : p = SDOC_DIR_NAME
    · have hbad : segmentBad pathMap p = false := by
        simp [segmentBad, hsd]
      rw [mapSegments, if_pos hsd, List.find?_cons_of_neg _ (by simp [hbad]), ih]
      rcases hfind : rest.find? (segmentBad pathMap) with _ | q
      · simp only [hfind, Except.map]
        rw [List.map_cons, if_pos hsd]
      · simp only [hfind, Except.map]
    · rcases halo : alookup p pathMap with _ | v
      · have hbad : segmentBad pathMap p = true := by
          simp [segmentBad, hsd, halo]
        rw [mapSegments, if_neg hsd, halo, List.find?_cons_of_pos _ hbad]
      · by_cases hv : v = []
        · subst hv
          have hbad : segmentBad pathMap p = true := by
            simp [segmentBad, hsd, halo]
          rw [List.find?_cons_of_pos _ hbad, mapSegments, if_neg hsd, halo]
          rfl
        · have hbad : segmentBad pathMap p = false := by
            simp [segmentBad, hsd, halo, hv]
          rw [List.find?_cons_of_neg _ (by simp [hbad]), mapSegments, if_neg hsd, halo, ih]
          rcases hfind : rest.find? (segmentBad pathMap) with _ | q
          · simp [hfind, Except.map, hsd, halo, hv]
          · simp [hfind, Except.map, hv]

/-- The mapping loop never reports the missing-anchor failure. -/
theorem mapSegments_ne_noAnchor (pathMap : List (List Char × List Char))
    (parts : List (List Char)) :
    mapSegments pathMap parts ≠ .error .noAnchor := by
  rw [mapSegments_eq_find]
  rcases hfind : parts.find? (segmentBad pathMap) with _ | q <;> simp

/-- Claim C5 as stated is false: an alias can be present in the map and
the resolution still fails, because an empty-string alias is falsy.  Here
every segment has a mapping (`"a" ↦ ""`), yet the loop fails with the
unmapped-segment error for `"a"` and produces no output. -/
theorem c5_counterexample :
    alookup ("a".toList) [("a".toList, ([] : List Char))] = some [] ∧
    (∀ p ∈ ["sdoc".toList, "a".toList],
      p = SDOC_DIR_NAME ∨ (alookup p [("a".toList, ([] : List Char))]).isSome = true) ∧
    mapSegments [("a".toList, ([] : List Char))] ["sdoc".toList, "a".toList] =
      .error (.unmapped ("a".toList)) := by
  refine ⟨rfl, ?_, rfl⟩
  decide

/-- Claim C5, amended: the resolution is all-or-nothing; an anchor segment
is kept verbatim, every other segment is replaced by its alias provided
that alias is a nonempty string, and the loop fails with the first segment
whose alias is missing *or empty*, producing no partial output. -/
theorem c5_all_or_nothing (pathMap : List (List Char × List Char))
    (parts : List (List Char)) :
    mapSegments pathMap parts =
      match parts.find? (segmentBad pathMap) with
      | some p => .error (.unmapped p)
      | none =>
        .ok (parts.map fun p =>
          if p = SDOC_DIR_NAME then p else (alookup p pathMap).getD []) :=
  mapSegments_eq_find pathMap parts

/-- `indexOf` finds nothing exactly when the pattern occurs at no
position. -/
theorem indexOfSub?_eq_none_iff (pat : List Char) :
    ∀ l : List Char,
      indexOfSub? pat l = none ↔ ∀ i, ¬ (pat.isPrefixOf (l.drop i) = true) := by
  intro l
  induction l with
  | nil =>
    constructor
    · intro h i
      rw [indexOfSub?] at h
      rcases hp : pat.isPrefixOf ([] : List Char) with _ | _
      · simp [List.drop_nil, hp]
      · rw [if_pos hp] at h
        exact absurd h (by simp)
    · intro h
      rw [indexOfSub?]
      rcases hp : pat.isPrefixOf ([] : List Char) with _ | _
      · rw [if_neg (by simp [hp])]
      · exact absurd hp (by simpa using h 0)
  | cons c r ih =>
    constructor
    · intro h i
      rw [indexOfSub?] at h
      rcases hp : pat.isPrefixOf (c :: r) with _ | _
      · rw [if_neg (by simp [hp])] at h
        match i with
        | 0 => simp [hp]
        | i + 1 =>
          simp only [List.drop_succ_cons]
          exact (ih.mp (by simpa using h)) i
      · rw [if_pos hp] at h
        exact absurd h (by simp)
    · intro h
      rw [indexOfSub?]
      rcases hp : pat.isPrefixOf (c :: r) with _ | _
      · rw [if_neg (by simp [hp])]
        rw [(ih.mpr fun i => by simpa using h (i + 1) : indexOfSub? pat r = none)]
        rfl
      · exact absurd hp (by simpa using h 0)

/-- Claim C7 as stated is false: the anchor detection of
`processPathWithMap` is `indexOf`, a substring search, not a
segment comparison.  The path `/home/u/sdocs/aa` has no directory segment
equal to `sdoc`, yet resolution does not fail with the no-anchor error —
it proceeds from inside the segment `sdocs` and even succeeds. -/
theorem c7_counterexample :
    ("sdoc".toList ∉ splitSep '/' ("/home/u/sdocs/aa".toList)) ∧
    processPathCore ("/home/u/sdocs/aa".toList)
        [("sdocs".toList, "x".toList), ("aa".toList, "y".toList)] =
      .ok ("x/y".toList) := by
  constructor
  · decide
  · rfl

/-- Claim C7, amended: `processPathWithMap` fails with the no-anchor error
exactly when the four-character sequence `sdoc` occurs nowhere in the
absolute output path as a substring (occurrences inside longer segment
names also count as anchors); when it does occur, resolution proceeds on
the path suffix that starts at the first occurrence, split into segments. -/
theorem processPathCore_of_none (absDir : List Char)
    (pathMap : List (List Char × List Char))
    (h : indexOfSub? SDOC_DIR_NAME absDir = none) :
    processPathCore absDir pathMap = .error .noAnchor := by
  rw [processPathCore, h]

theorem processPathCore_of_some (absDir : List Char)
    (pathMap : List (List Char × List Char)) (i : Nat)
    (h : indexOfSub? SDOC_DIR_NAME absDir = some i) :
    processPathCore absDir pathMap =
      (mapSegments pathMap (splitSep '/' (absDir.drop i))).map joinSlash := by
  rw [processPathCore, h]

theorem c7_no_anchor_iff (absDir : List Char) (pathMap : List (List Char × List Char)) :
    (processPathCore absDir pathMap = .error .noAnchor ↔
      ∀ i, ¬ (SDOC_DIR_NAME.isPrefixOf (absDir.drop i) = true)) ∧
    (∀ i, indexOfSub? SDOC_DIR_NAME absDir = some i →
      processPathCore absDir pathMap =
        (mapSegments pathMap (splitSep '/' (absDir.drop i))).map joinSlash) := by
  constructor
  · rw [← indexOfSub?_eq_none_iff]
    constructor
    · intro h
      rcases hidx : indexOfSub? SDOC_DIR_NAME absDir with _ | i
      · rfl
      · rw [processPathCore_of_some absDir pathMap i hidx] at h
        rcases hm : mapSegments pathMap (splitSep '/' (absDir.drop i)) with e | v
        · rw [hm] at h
          simp only [Except.map] at h
          injection h with h'
          exact absurd (h' ▸ hm) (mapSegments_ne_noAnchor pathMap _)
        · rw [hm] at h
          simp [Except.map] at h
    · intro h
      exact processPathCore_of_none absDir pathMap h
  · intro i hidx
    exact processPathCore_of_some absDir pathMap i hidx

/-! ### Map-scan lemmas and claim C9 -/

/-- First-of-two option choice (the composition law of shadowing
lookups). -/
def lookupOr (a b : Option (List Char)) : Option (List Char) :=
  match a with
  | some v => some v
  | none => b

theorem lookupOr_none_right (a : Option (List Char)) : lookupOr a none = a := by
  cases a <;> rfl

theorem lookupOr_assoc (a b c : Option (List Char)) :
    lookupOr (lookupOr a b) c = lookupOr a (lookupOr b c) := by
  cases a <;> rfl

theorem alookup_append (k : List Char) (A B : List (List Char × List Char)) :
    alookup k (A ++ B) = lookupOr (alookup k A) (alookup k B) := by
  induction A with
  | nil => rfl
  | cons p r ih =>
    rw [List.cons_append, alookup, alookup]
    by_cases h : p.1 = k
    · rw [if_pos h, if_pos h]; rfl
    · rw [if_neg h, if_neg h, ih]

theorem alookup_mapSet (m : List (List Char × List Char)) (k v k' : List Char) :
    alookup k' (mapSet m k v) = if k = k' then some v else alookup k' m := by
  induction m with
  | nil => simp [mapSet, alookup]
  | cons p r ih =>
    by_cases hp : p.1 = k
    · by_cases h : k = k'
      · simp [mapSet, alookup, hp, h]
      · have hpk : ¬ p.1 = k' := by rw [hp]; exact h
        simp [mapSet, alookup, hp, h, hpk]
    · by_cases hpk : p.1 = k'
      · have h : ¬ k = k' := fun hkk => hp (hpk.trans hkk.symm)
        have h2 : ¬ k' = k := fun hkk => h hkk.symm
        simp [mapSet, alookup, hp, hpk, h, h2]
      · simp [mapSet, alookup, hp, hpk, ih]

/-- Replaying a list of `Map.set` operations: the last write to a key
wins, falling back to the initial map. -/
theorem alookup_foldl_mapSet (l : List (List Char × List Char))
    (acc : List (List Char × List Char)) (k : List Char) :
    alookup k (l.foldl (fun a q => mapSet a q.1 q.2) acc) =
      lookupOr (alookup k l.reverse) (alookup k acc) := by
  induction l generalizing acc with
  | nil => rfl
  | cons p t ih =>
    rw [List.foldl_cons, ih, List.reverse_cons, alookup_append, lookupOr_assoc]
    congr 1
    rw [alookup_mapSet, alookup]
    by_cases h : p.1 = k
    · rw [if_pos h, if_pos h]; rfl
    · rw [if_neg h, if_neg h]; rfl

theorem alookup_eq_none_of_not_mem_keys (k : List Char)
    (m : List (List Char × List Char)) (h : k ∉ m.map Prod.fst) :
    alookup k m = none := by
  induction m with
  | nil => rfl
  | cons p r ih =>
    rw [List.map_cons] at h
    rw [alookup,
      if_neg (fun hp => h (by rw [← hp]; exact List.mem_cons_self _ _)),
      ih (fun hk => h (List.mem_cons_of_mem _ hk))]

/-- On a map whose keys are pairwise distinct, lookup in the reversed
list agrees with lookup in the list. -/
theorem alookup_reverse_of_nodup (k : List Char) (m : List (List Char × List Char))
    (h : (m.map Prod.fst).Nodup) : alookup k m.reverse = alookup k m := by
  induction m with
  | nil => rfl
  | cons p r ih =>
    rw [List.map_cons, List.nodup_cons] at h
    rw [List.reverse_cons, alookup_append, ih h.2]
    by_cases hp : p.1 = k
    · have hkr : alookup k r = none :=
        alookup_eq_none_of_not_mem_keys k r (by rw [← hp]; exact h.1)
      simp [alookup, hp, hkr, lookupOr]
    · simp [alookup, hp, lookupOr_none_right]

theorem mem_keys_mapSet (m : List (List Char × List Char)) (k v x : List Char)
    (hx : x ∈ (mapSet m k v).map Prod.fst) : x = k ∨ x ∈ m.map Prod.fst := by
  induction m with
  | nil =>
    rw [mapSet] at hx
    simp at hx
    exact Or.inl hx
  | cons p r ih =>
    rw [mapSet] at hx
    by_cases hp : p.1 = k
    · rw [if_pos hp] at hx
      rcases List.mem_map.mp hx with ⟨q, hq, rfl⟩
      rcases List.mem_cons.mp hq with rfl | hq'
      · exact Or.inl rfl
      · exact Or.inr (List.mem_map.mpr ⟨q, List.mem_cons_of_mem _ hq', rfl⟩)
    · rw [if_neg hp] at hx
      rcases List.mem_map.mp hx with ⟨q, hq, rfl⟩
      rcases List.mem_cons.mp hq with rfl | hq'
      · exact Or.inr (by simp)
      · rcases ih (List.mem_map.mpr ⟨q, hq', rfl⟩) with h | h
        · exact Or.inl h
        · exact Or.inr (List.mem_cons_of_mem _ h)

theorem mapSet_keys_nodup (m : List (List Char × List Char)) (k v : List Char)
    (h : (m.map Prod.fst).Nodup) : ((mapSet m k v).map Prod.fst).Nodup := by
  induction m with
  | nil => simp [mapSet]
  | cons p r ih =>
    rw [List.map_cons, List.nodup_cons] at h
    rw [mapSet]
    by_cases hp : p.1 = k
    · rw [if_pos hp]
      rw [List.map_cons, List.nodup_cons]
      exact ⟨by rw [← hp]; exact h.1, h.2⟩
    · rw [if_neg hp]
      rw [List.map_cons, List.nodup_cons]
      refine ⟨?_, ih h.2⟩
      intro hmem
      rcases mem_keys_mapSet r k v p.1 hmem with h1 | h1
      · exact hp h1
      · exact h.1 h1

theorem foldl_mapSet_keys_nodup (l : List (List Char × List Char))
    (acc : List (List Char × List Char)) (h : (acc.map Prod.fst).Nodup) :
    ((l.foldl (fun a q => mapSet a q.1 q.2) acc).map Prod.fst).Nodup := by
  induction l generalizing acc with
  | nil => exact h
  | cons p t ih => exact ih _ (mapSet_keys_nodup acc p.1 p.2 h)

/-- The scan result never has duplicate keys (`Map` semantics). -/
theorem scanDirectories_keys_nodup (excl : List (List Char)) :
    ∀ (fuel : Nat) (tree : FsDir) (pre : List (List Char)),
      ((scanDirectories excl fuel tree pre).map Prod.fst).Nodup := by
  intro fuel
  induction fuel with
  | zero => intro tree pre; simp [scanDirectories]
  | succ f ih =>
    intro tree pre
    cases tree with
    | node files dirs =>
      rw [scanDirectories]
      have : ∀ (ds : List (List Char × FsDir)) (acc : List (List Char × List Char)),
          (acc.map Prod.fst).Nodup →
          ((ds.foldl
            (fun acc p =>
              if p.1 ∈ excl then acc
              else if (p.1 ++ ".md".toList) ∈ files ∨
                  (p.1 ++ ".md".toList) ∈ dirs.map Prod.fst then acc
              else
                (scanDirectories excl f p.2 (pre ++ [p.1])).foldl
                  (fun a q => mapSet a q.1 q.2)
                  (mapSet acc p.1 (joinSlash (pre ++ [p.1])))) acc).map Prod.fst).Nodup := by
        intro ds
        induction ds with
        | nil => intro acc h; exact h
        | cons p t iht =>
          intro acc h
          rw [List.foldl_cons]
          by_cases h1 : p.1 ∈ excl
          · rw [if_pos h1]; exact iht acc h
          · rw [if_neg h1]
            by_cases h2 : (p.1 ++ ".md".toList) ∈ files ∨
                (p.1 ++ ".md".toList) ∈ dirs.map Prod.fst
            · rw [if_pos h2]; exact iht acc h
            · rw [if_neg h2]
              exact iht _ (foldl_mapSet_keys_nodup _ _ (mapSet_keys_nodup acc _ _ h))
      exact this dirs [] (by simp)

/-- **C9** (amended).  The recursive scan records exactly the
subdirectories that are not skipped — a subdirectory and its whole
subtree are skipped exactly when the parent directory holds *any* entry
named `name.md` (`fs.existsSync` is also true for a sibling directory of
that name) or the name is in the exclusion set — mapping each recorded
name to its `/`-joined path relative to the scan
root, and when several directories share a name, the one visited later in
depth-first order overwrites the earlier one.  `scanVisits` lists the
non-skipped `(name, relativePath)` pairs in visit order, and looking a
name up in the scan result is looking it up from the back of that list. -/
theorem c9_scan_skip_and_overwrite (excl : List (List Char)) :
    ∀ (fuel : Nat) (tree : FsDir) (pre : List (List Char)) (k : List Char),
      alookup k (scanDirectories excl fuel tree pre) =
        alookup k (scanVisits excl fuel tree pre).reverse := by
  intro fuel
  induction fuel with
  | zero => intro tree pre k; rfl
  | succ f ih =>
    intro tree pre k
    cases tree with
    | node files dirs =>
      rw [scanDirectories, scanVisits]
      have main : ∀ (ds : List (List Char × FsDir))
          (accS accV : List (List Char × List Char)),
          (∀ k', alookup k' accS = alookup k' accV.reverse) →
          ∀ k',
          alookup k' (ds.foldl
            (fun acc p =>
              if p.1 ∈ excl then acc
              else if (p.1 ++ ".md".toList) ∈ files ∨
                  (p.1 ++ ".md".toList) ∈ dirs.map Prod.fst then acc
              else
                (scanDirectories excl f p.2 (pre ++ [p.1])).foldl
                  (fun a q => mapSet a q.1 q.2)
                  (mapSet acc p.1 (joinSlash (pre ++ [p.1])))) accS) =
          alookup k' ((ds.foldl
            (fun acc p =>
              if p.1 ∈ excl ∨ ((p.1 ++ ".md".toList) ∈ files ∨
                  (p.1 ++ ".md".toList) ∈ dirs.map Prod.fst) then acc
              else
                acc ++ (p.1, joinSlash (pre ++ [p.1])) ::
                  scanVisits excl f p.2 (pre ++ [p.1])) accV)).reverse := by
        intro ds
        induction ds with
        | nil => intro accS accV hinv k'; rw [List.foldl_nil, List.foldl_nil]; exact hinv k'
        | cons p t iht =>
          intro accS accV hinv k'
          rw [List.foldl_cons, List.foldl_cons]
          by_cases h1 : p.1 ∈ excl
          · rw [if_pos h1, if_pos (Or.inl h1)]
            exact iht accS accV hinv k'
          · by_cases h2 : (p.1 ++ ".md".toList) ∈ files ∨
                (p.1 ++ ".md".toList) ∈ dirs.map Prod.fst
            · rw [if_neg h1, if_pos h2, if_pos (Or.inr h2)]
              exact iht accS accV hinv k'
            · rw [if_neg h1, if_neg h2, if_neg (by rintro (h | h); exact h1 h; exact h2 h)]
              refine iht _ _ ?_ k'
              intro k2
              rw [alookup_foldl_mapSet, alookup_mapSet]
              rw [alookup_reverse_of_nodup k2 _ (scanDirectories_keys_nodup excl f p.2 (pre ++ [p.1]))]
              rw [ih p.2 (pre ++ [p.1]) k2]
              rw [List.reverse_append, List.reverse_cons, List.append_assoc]
              rw [alookup_append, alookup_append]
              congr 1
              rw [alookup]
              by_cases hk : p.1 = k2
              · rw [if_pos hk, if_pos hk]
                rfl
              · rw [if_neg hk, if_neg hk, alookup, hinv k2]
                rfl
      exact main dirs [] [] (fun _ => rfl) k

/-- Claim C9 as stated is false on the word *file*: the skip test is
`fs.existsSync(dirPath/name.md)`, which is also true when the sibling
entry `name.md` is a directory.  In a root whose plain-file list is empty
and whose subdirectories are `foo` and `foo.md`, no sibling *file*
`foo.md` exists and `foo` is not excluded, yet the scan skips `foo`
(while recording `foo.md` itself). -/
theorem c9_counterexample :
    alookup ("foo".toList)
        (scanDirectories [] 2
          (FsDir.node [] [("foo".toList, FsDir.node [] []),
            ("foo.md".toList, FsDir.node [] [])]) []) = none ∧
    alookup ("foo.md".toList)
        (scanDirectories [] 2
          (FsDir.node [] [("foo".toList, FsDir.node [] []),
            ("foo.md".toList, FsDir.node [] [])]) []) =
      some ("foo.md".toList) ∧
    ¬ (("foo".toList ++ ".md".toList) ∈ ([] : List (List Char)) ∨
        "foo".toList ∈ ([] : List (List Char))) := by
  refine ⟨rfl, rfl, ?_⟩
  decide

/-! ### `path-map.js` rewrite lemmas and claim C6 -/

theorem length_dropWhile_le' (p : Char → Bool) (l : List Char) :
    (l.dropWhile p).length ≤ l.length := by
  induction l with
  | nil => simp
  | cons c t ih =>
    rw [List.dropWhile_cons]
    by_cases h : p c = true
    · rw [if_pos h]
      simp only [List.length_cons]
      omega
    · rw [if_neg h]

theorem matchEntry_of_ne (c : Char) (r : List Char) (h : c ≠ '"') :
    matchEntry (c :: r) = none := by
  unfold matchEntry
  split
  · next r' heq =>
    injection heq with h1 h2
    exact absurd h1 h
  · rfl

theorem matchEntryValue_rest_lt (name r4 n v tail : List Char)
    (hm : matchEntryValue name r4 = some (n, v, tail)) : tail.length < r4.length := by
  unfold matchEntryValue at hm
  by_cases hv : r4.takeWhile (· ≠ '"') = []
  · rw [if_pos hv] at hm
    exact absurd hm (by simp)
  · rw [if_neg hv] at hm
    split at hm
    · next tail' heq =>
      have := length_dropWhile_le' (fun x => decide (x ≠ '"')) r4
      rw [heq] at this
      simp only [Option.some.injEq, Prod.mk.injEq] at hm
      obtain ⟨-, -, hm3⟩ := hm
      subst hm3
      simp only [List.length_cons] at this
      omega
    · exact absurd hm (by simp)

theorem matchEntryAfterColon_rest_lt (name r3 n v tail : List Char)
    (hm : matchEntryAfterColon name r3 = some (n, v, tail)) : tail.length < r3.length := by
  unfold matchEntryAfterColon at hm
  split at hm
  · next r4 =>
    have := matchEntryValue_rest_lt name r4 n v tail hm
    simp only [List.length_cons]
    omega
  · exact absurd hm (by simp)

theorem matchEntryAfterName_rest_lt (name r1 n v tail : List Char)
    (hm : matchEntryAfterName name r1 = some (n, v, tail)) : tail.length < r1.length := by
  unfold matchEntryAfterName at hm
  split at hm
  · next r2 =>
    have h1 := matchEntryAfterColon_rest_lt name _ n v tail hm
    have h2 := length_dropWhile_le' isJsSpace r2
    simp only [List.length_cons]
    omega
  · exact absurd hm (by simp)

theorem matchEntry_rest_lt (l n v rest : List Char)
    (hm : matchEntry l = some (n, v, rest)) : rest.length < l.length := by
  match l with
  | [] =>
    have hnone : matchEntry ([] : List Char) = none := rfl
    rw [hnone] at hm
    exact absurd hm (by simp)
  | c :: r =>
    by_cases hc : c = '"'
    · subst hc
      have hq : matchEntry ('"' :: r) =
          if r.takeWhile (· ≠ '"') = [] then none
          else matchEntryAfterName (r.takeWhile (· ≠ '"')) (r.dropWhile (· ≠ '"')) := rfl
      rw [hq] at hm
      by_cases hn : r.takeWhile (· ≠ '"') = []
      · rw [if_pos hn] at hm
        exact absurd hm (by simp)
      · rw [if_neg hn] at hm
        have h1 := matchEntryAfterName_rest_lt _ _ n v rest hm
        have h2 := length_dropWhile_le' (fun x => decide (x ≠ '"')) r
        simp only [List.length_cons]
        omega
    · rw [matchEntry_of_ne c r hc] at hm
      exact absurd hm (by simp)

theorem scanEntries_fuel_aux :
    ∀ (len : Nat) (l : List Char), l.length = len →
      ∀ f₁ f₂, l.length ≤ f₁ → l.length ≤ f₂ → scanEntries f₁ l = scanEntries f₂ l := by
  intro len
  induction len using Nat.strong_induction_on with
  | _ len ihl =>
    intro l hlen f₁ f₂ h₁ h₂
    match l, f₁, f₂ with
    | [], 0, 0 => rfl
    | [], 0, _ + 1 => rfl
    | [], _ + 1, 0 => rfl
    | [], _ + 1, _ + 1 => rfl
    | c :: r, f + 1, g + 1 =>
      rw [scanEntries, scanEntries]
      rcases hme : matchEntry (c :: r) with _ | ⟨n, v, rest⟩
      · have hr : r.length < len := by rw [← hlen]; simp
        show scanEntries f r = scanEntries g r
        exact ihl r.length hr r rfl f g (by simp at h₁; omega) (by simp at h₂; omega)
      · have hrest := matchEntry_rest_lt (c :: r) n v rest hme
        have hlt : rest.length < len := by rw [← hlen]; exact hrest
        show (n, v) :: scanEntries f rest = (n, v) :: scanEntries g rest
        rw [ihl rest.length hlt rest rfl f g (by simp at h₁ hrest; omega)
          (by simp at h₂ hrest; omega)]

theorem scanEntries_fuel (l : List Char) (f₁ f₂ : Nat)
    (h₁ : l.length ≤ f₁) (h₂ : l.length ≤ f₂) :
    scanEntries f₁ l = scanEntries f₂ l :=
  scanEntries_fuel_aux l.length l rfl f₁ f₂ h₁ h₂

theorem readMapPairs_cons_ne (c : Char) (r : List Char) (h : c ≠ '"') :
    readMapPairs (c :: r) = readMapPairs r := by
  rw [readMapPairs, readMapPairs, List.length_cons, scanEntries, matchEntry_of_ne c r h]

theorem readMapPairs_append_clean (pre rest : List Char)
    (h : ∀ c ∈ pre, c ≠ '"') :
    readMapPairs (pre ++ rest) = readMapPairs rest := by
  induction pre with
  | nil => rfl
  | cons c t ih =>
    rw [List.cons_append,
      readMapPairs_cons_ne c (t ++ rest) (h c (List.mem_cons_self c t)),
      ih fun c' hc' => h c' (List.mem_cons_of_mem c hc')]

theorem readMapPairs_clean (l : List Char) (h : ∀ c ∈ l, c ≠ '"') :
    readMapPairs l = [] := by
  have := readMapPairs_append_clean l [] h
  rw [List.append_nil] at this
  rw [this]
  rfl

theorem readMapPairs_of_match (l n v rest : List Char)
    (hm : matchEntry l = some (n, v, rest)) :
    readMapPairs l = (n, v) :: readMapPairs rest := by
  match l with
  | [] =>
    have hnone : matchEntry ([] : List Char) = none := rfl
    rw [hnone] at hm
    exact absurd hm (by simp)
  | c :: r =>
    rw [readMapPairs, List.length_cons, scanEntries, hm, readMapPairs]
    have hlt := matchEntry_rest_lt (c :: r) n v rest hm
    show (n, v) :: scanEntries r.length rest = (n, v) :: scanEntries rest.length rest
    rw [scanEntries_fuel rest r.length rest.length (by simp at hlt; omega) le_rfl]

theorem span_quote_free (n rest : List Char) (h : '"' ∉ n) :
    (n ++ '"' :: rest).takeWhile (· ≠ '"') = n ∧
    (n ++ '"' :: rest).dropWhile (· ≠ '"') = '"' :: rest := by
  induction n with
  | nil => constructor <;> simp [List.takeWhile, List.dropWhile]
  | cons c t ih =>
    have hc : (c ≠ '"') := fun hh => h (hh ▸ List.mem_cons_self c t)
    have hrec := ih fun hmem => h (List.mem_cons_of_mem c hmem)
    constructor
    · rw [List.cons_append, List.takeWhile_cons, if_pos (by simpa using hc), hrec.1]
    · rw [List.cons_append, List.dropWhile_cons, if_pos (by simpa using hc), hrec.2]

/-- A well-formed quoted entry at the head of the string is matched
exactly, leaving everything after the closing quote. -/
theorem matchEntry_entry (n v rest : List Char)
    (hn : n ≠ []) (hnq : '"' ∉ n) (hv : v ≠ []) (hvq : '"' ∉ v) :
    matchEntry ('"' :: (n ++ '"' :: ':' :: ' ' :: '"' :: (v ++ '"' :: rest))) =
      some (n, v, rest) := by
  have h1 := span_quote_free n (':' :: ' ' :: '"' :: (v ++ '"' :: rest)) hnq
  have h2 := span_quote_free v rest hvq
  have hq : matchEntry ('"' :: (n ++ '"' :: ':' :: ' ' :: '"' :: (v ++ '"' :: rest))) =
      if (n ++ '"' :: ':' :: ' ' :: '"' :: (v ++ '"' :: rest)).takeWhile (· ≠ '"') = []
      then none
      else matchEntryAfterName
        ((n ++ '"' :: ':' :: ' ' :: '"' :: (v ++ '"' :: rest)).takeWhile (· ≠ '"'))
        ((n ++ '"' :: ':' :: ' ' :: '"' :: (v ++ '"' :: rest)).dropWhile (· ≠ '"')) := rfl
  rw [hq, h1.1, h1.2, if_neg hn]
  have hstep1 : matchEntryAfterName n ('"' :: ':' :: ' ' :: '"' :: (v ++ '"' :: rest)) =
      matchEntryAfterColon n ((' ' :: '"' :: (v ++ '"' :: rest)).dropWhile isJsSpace) := rfl
  have hws : (' ' :: '"' :: (v ++ '"' :: rest)).dropWhile isJsSpace =
      '"' :: (v ++ '"' :: rest) := by
    rw [List.dropWhile_cons, if_pos (by decide), List.dropWhile_cons, if_neg (by decide)]
  rw [hstep1, hws]
  have hstep2 : matchEntryAfterColon n ('"' :: (v ++ '"' :: rest)) =
      matchEntryValue n (v ++ '"' :: rest) := rfl
  rw [hstep2, matchEntryValue, h2.1, h2.2, if_neg hv]
  rfl

/-- A successful `alookup` returns a value stored in the list. -/
theorem alookup_mem (k : List Char) (m : List (List Char × List Char))
    (v : List Char) (h : alookup k m = some v) : (k, v) ∈ m := by
  induction m with
  | nil => exact absurd h (by rw [alookup] at h ⊢; simp)
  | cons p r ih =>
    rw [alookup] at h
    by_cases hp : p.1 = k
    · rw [if_pos hp] at h
      injection h with h
      subst h
      rw [← hp]
      exact List.mem_cons_self _ _
    · rw [if_neg hp] at h
      exact List.mem_cons_of_mem _ (ih h)

/-- Claim C6: regenerating the path map preserves user edits — the
rewritten `path-map.js` content, re-read with the same key/value
extraction, assigns each discovered name its value from the existing map
when the name was already present and the sentinel `"default"` otherwise
(names, aliases and relative paths that are nonempty and quote-free, as
produced by the scanner and by previous generations). -/
theorem c6_regenerate_preserves (dirMap existing : List (List Char × List Char))
    (hdir : ∀ p ∈ dirMap, p.1 ≠ [] ∧ '"' ∉ p.1 ∧ '"' ∉ p.2)
    (hex : ∀ p ∈ existing, p.2 ≠ [] ∧ '"' ∉ p.2) :
    readMapPairs (renderPathMap dirMap existing) =
      dirMap.map fun p => (p.1, (alookup p.1 existing).getD ("default".toList)) := by
  rw [renderPathMap, List.append_assoc, readMapPairs_append_clean pathMapHeader _ (by decide)]
  induction dirMap with
  | nil =>
    rw [List.map_nil, List.flatten_nil, List.nil_append]
    exact readMapPairs_clean _ (by decide)
  | cons p t ih =>
    have hp := hdir p (List.mem_cons_self p t)
    set val : List Char := (alookup p.1 existing).getD ("default".toList) with hval
    have hvne : val ≠ [] ∧ '"' ∉ val := by
      rcases halo : alookup p.1 existing with _ | w
      · rw [hval, halo]
        constructor <;> decide
      · rw [hval, halo]
        exact ⟨(hex _ (alookup_mem p.1 existing w halo)).1,
          (hex _ (alookup_mem p.1 existing w halo)).2⟩
    have hshape : renderEntry existing p ++
        ((t.map (renderEntry existing)).flatten ++ ("\x7d;\n").toList) =
        ' ' :: ' ' :: '"' :: (p.1 ++ '"' :: ':' :: ' ' :: '"' ::
          (val ++ '"' :: ((',' :: ' ' :: '/' :: '/' :: ' ' :: p.2 ++ ['\n']) ++
            ((t.map (renderEntry existing)).flatten ++ ("\x7d;\n").toList)))) := by
      rw [renderEntry, ← hval]
      simp [List.append_assoc]
    rw [List.map_cons, List.flatten_cons, List.append_assoc, hshape,
      readMapPairs_cons_ne _ _ (by decide), readMapPairs_cons_ne _ _ (by decide),
      readMapPairs_of_match _ _ _ _
        (matchEntry_entry p.1 val _ hp.1 hp.2.1 hvne.1 hvne.2),
      readMapPairs_append_clean _ _ ?hclean]
    case hclean =>
      intro c hc
      rcases List.mem_cons.mp hc with rfl | hc
      · decide
      rcases List.mem_cons.mp hc with rfl | hc
      · decide
      rcases List.mem_cons.mp hc with rfl | hc
      · decide
      rcases List.mem_cons.mp hc with rfl | hc
      · decide
      rcases List.mem_cons.mp hc with rfl | hc
      · decide
      rcases List.mem_append.mp hc with hc | hc
      · exact fun hq => hp.2.2 (hq ▸ hc)
      · rcases List.mem_cons.mp hc with rfl | hc
        · decide
        · exact absurd hc (List.not_mem_nil c)
    · rw [ih fun q hq => hdir q (List.mem_cons_of_mem p hq), List.map_cons]

/-- Witness for C6 at the specification's concrete example: an existing
map `{"foo": "bar"}`, a rescan discovering `foo` and a new directory
`baz`, and the regenerated file containing `foo ↦ bar`, `baz ↦ default`. -/
theorem c6_regenerate_preserves_witness :
    readMapPairs (renderPathMap
        [("foo".toList, "foo".toList), ("baz".toList, "02-baz".toList)]
        [("foo".toList, "bar".toList)]) =
      [("foo".toList, "bar".toList), ("baz".toList, "default".toList)] := by
  have h := c6_regenerate_preserves
    [("foo".toList, "foo".toList), ("baz".toList, "02-baz".toList)]
    [("foo".toList, "bar".toList)]
    (by decide) (by decide)
  rw [h]
  rfl

/-! ### Decoder dependence on the inspected prefix: claim C10 -/

/-- The decode result up to the echoed original input: the timestamp
string and the date fields. -/
def parsedCore :
    Except DecodeErr ParsedPermalink → Except DecodeErr (List Char × Option DateFields)
  | .ok r => .ok (r.timestamp, r.fields)
  | .error e => .error e

theorem head?_eq_of_take_one_eq (l₁ l₂ : List Char) (h : l₁.take 1 = l₂.take 1) :
    l₁.head? = l₂.head? := by
  cases l₁ <;> cases l₂ <;> simp_all [List.take]

theorem take_eq_of_take_le (l₁ l₂ : List Char) (k j : Nat) (hj : j ≤ k)
    (h : l₁.take k = l₂.take k) : l₁.take j = l₂.take j := by
  calc l₁.take j = (l₁.take k).take j := by rw [List.take_take, min_eq_left hj]
    _ = (l₂.take k).take j := by rw [h]
    _ = l₂.take j := by rw [List.take_take, min_eq_left hj]

theorem isPrefixOf_congr (p : List Char) :
    ∀ (l₁ l₂ : List Char) (k : Nat), p.length ≤ k → l₁.take k = l₂.take k →
      p.isPrefixOf l₁ = p.isPrefixOf l₂ := by
  induction p with
  | nil => intro l₁ l₂ k hk h; simp [List.isPrefixOf]
  | cons c p ih =>
    intro l₁ l₂ k hk h
    match l₁, l₂, k with
    | [], [], _ => rfl
    | [], d :: l₂, k + 1 => simp at h
    | d :: l₁, [], k + 1 => simp at h
    | d₁ :: l₁, d₂ :: l₂, k + 1 =>
      simp only [List.take_succ_cons, List.cons.injEq] at h
      obtain ⟨h1, h2⟩ := h
      subst h1
      simp only [List.isPrefixOf_cons₂]
      simp only [List.length_cons] at hk
      rw [ih l₁ l₂ k (by omega) h2]

/-- `drop`-then-`take` windows agree when the corresponding prefixes
agree. -/
theorem drop_take_congr (l₁ l₂ : List Char) (a b k : Nat) (hk : a + b ≤ k)
    (h : l₁.take k = l₂.take k) : (l₁.drop a).take b = (l₂.drop a).take b := by
  have h' := take_eq_of_take_le l₁ l₂ k (a + b) hk h
  calc (l₁.drop a).take b = (l₁.take (a + b)).drop a := by
        rw [List.drop_take]
        congr 1
        omega
    _ = (l₂.take (a + b)).drop a := by rw [h']
    _ = (l₂.drop a).take b := by
        rw [List.drop_take]
        congr 1
        omega

/-- A candidate attempt reads only the first `len + 3` characters. -/
theorem tryTimestampLen_congr (s₁ s₂ : List Char) (len : Nat)
    (h : s₁.take (len + 3) = s₂.take (len + 3)) :
    tryTimestampLen s₁ len = tryTimestampLen s₂ len := by
  have e1 : s₁.take len = s₂.take len :=
    take_eq_of_take_le s₁ s₂ (len + 3) len (by omega) h
  have e2 : (s₁.drop len).take 3 = (s₂.drop len).take 3 :=
    drop_take_congr s₁ s₂ len 3 (len + 3) le_rfl h
  simp only [tryTimestampLen, e1, e2]

/-- Claim C10: the decoded timestamp and date depend only on the first 15
characters of the 24-character payload — two payloads of length 24 that
agree on their first 15 characters either decode to identical timestamp
and date fields or fail with identical errors; the trailing 9 entropy
characters are never inspected. -/
theorem c10_first15_determines (s₁ s₂ : List Char)
    (h₁ : s₁.length = 24) (h₂ : s₂.length = 24)
    (hp : s₁.take 15 = s₂.take 15) :
    parsedCore (parsePermalink s₁) = parsedCore (parsePermalink s₂) := by
  have hhead : s₁.head? = s₂.head? :=
    head?_eq_of_take_one_eq s₁ s₂ (take_eq_of_take_le s₁ s₂ 15 1 (by omega) hp)
  by_cases hsl : s₁.head? = some '/'
  · have hsl₂ : s₂.head? = some '/' := by rw [← hhead]; exact hsl
    have hd₁ : stripSlash s₁ = s₁.drop 1 := by rw [stripSlash, if_pos hsl]
    have hd₂ : stripSlash s₂ = s₂.drop 1 := by rw [stripSlash, if_pos hsl₂]
    have hdt : (s₁.drop 1).take 14 = (s₂.drop 1).take 14 :=
      drop_take_congr s₁ s₂ 1 14 15 le_rfl hp
    have hpre : (PERMALINK_PREFIX ++ ['/']).isPrefixOf (s₁.drop 1) =
        (PERMALINK_PREFIX ++ ['/']).isPrefixOf (s₂.drop 1) :=
      isPrefixOf_congr _ _ _ 14 (by decide) hdt
    by_cases hdoc : (PERMALINK_PREFIX ++ ['/']).isPrefixOf (s₁.drop 1) = true
    · have hdoc₂ : (PERMALINK_PREFIX ++ ['/']).isPrefixOf (s₂.drop 1) = true := by
        rw [← hpre]; exact hdoc
      have hs₁ : stripPermalink s₁ = (s₁.drop 1).drop 5 := by
        rw [stripPermalink, hd₁, stripDocs, if_pos hdoc]
        rfl
      have hs₂ : stripPermalink s₂ = (s₂.drop 1).drop 5 := by
        rw [stripPermalink, hd₂, stripDocs, if_pos hdoc₂]
        rfl
      have hl₁ : (stripPermalink s₁).length ≠ 24 := by
        rw [hs₁]; simp [h₁]
      have hl₂ : (stripPermalink s₂).length ≠ 24 := by
        rw [hs₂]; simp [h₂]
      rw [parsePermalink, if_neg hl₁, parsePermalink, if_neg hl₂]
    · have hdoc₂ : ¬ (PERMALINK_PREFIX ++ ['/']).isPrefixOf (s₂.drop 1) = true := by
        rw [← hpre]; exact hdoc
      have hs₁ : stripPermalink s₁ = s₁.drop 1 := by
        rw [stripPermalink, hd₁, stripDocs, if_neg hdoc]
      have hs₂ : stripPermalink s₂ = s₂.drop 1 := by
        rw [stripPermalink, hd₂, stripDocs, if_neg hdoc₂]
      have hl₁ : (stripPermalink s₁).length ≠ 24 := by
        rw [hs₁]; simp [h₁]
      have hl₂ : (stripPermalink s₂).length ≠ 24 := by
        rw [hs₂]; simp [h₂]
      rw [parsePermalink, if_neg hl₁, parsePermalink, if_neg hl₂]
  · have hsl₂ : ¬ s₂.head? = some '/' := by rw [← hhead]; exact hsl
    have hd₁ : stripSlash s₁ = s₁ := by rw [stripSlash, if_neg hsl]
    have hd₂ : stripSlash s₂ = s₂ := by rw [stripSlash, if_neg hsl₂]
    have hpre : (PERMALINK_PREFIX ++ ['/']).isPrefixOf s₁ =
        (PERMALINK_PREFIX ++ ['/']).isPrefixOf s₂ :=
      isPrefixOf_congr _ _ _ 15 (by decide) hp
    by_cases hdoc : (PERMALINK_PREFIX ++ ['/']).isPrefixOf s₁ = true
    · have hdoc₂ : (PERMALINK_PREFIX ++ ['/']).isPrefixOf s₂ = true := by
        rw [← hpre]; exact hdoc
      have hs₁ : stripPermalink s₁ = s₁.drop 5 := by
        rw [stripPermalink, hd₁, stripDocs, if_pos hdoc]
        rfl
      have hs₂ : stripPermalink s₂ = s₂.drop 5 := by
        rw [stripPermalink, hd₂, stripDocs, if_pos hdoc₂]
        rfl
      have hl₁ : (stripPermalink s₁).length ≠ 24 := by
        rw [hs₁]; simp [h₁]
      have hl₂ : (stripPermalink s₂).length ≠ 24 := by
        rw [hs₂]; simp [h₂]
      rw [parsePermalink, if_neg hl₁, parsePermalink, if_neg hl₂]
    · have hdoc₂ : ¬ (PERMALINK_PREFIX ++ ['/']).isPrefixOf s₂ = true := by
        rw [← hpre]; exact hdoc
      have hs₁ : stripPermalink s₁ = s₁ := by
        rw [stripPermalink, hd₁, stripDocs, if_neg hdoc]
      have hs₂ : stripPermalink s₂ = s₂ := by
        rw [stripPermalink, hd₂, stripDocs, if_neg hdoc₂]
      have htl : ∀ len ∈ timestampLengths,
          tryTimestampLen s₁ len = tryTimestampLen s₂ len := by
        intro len hlen
        have hle : len + 3 ≤ 15 := by
          simp only [timestampLengths, List.mem_cons, List.not_mem_nil, or_false] at hlen
          rcases hlen with rfl | rfl | rfl | rfl | rfl <;> omega
        exact tryTimestampLen_congr s₁ s₂ len
          (take_eq_of_take_le s₁ s₂ 15 (len + 3) hle hp)
      have hfs : timestampLengths.findSome? (tryTimestampLen s₁) =
          timestampLengths.findSome? (tryTimestampLen s₂) := by
        simp only [timestampLengths, List.findSome?_cons]
        rw [htl 12 (by decide), htl 11 (by decide), htl 10 (by decide),
          htl 9 (by decide), htl 8 (by decide)]
        rfl
      rw [parsePermalink, if_pos (by rw [hs₁]; exact h₁),
        parsePermalink, if_pos (by rw [hs₂]; exact h₂), hs₁, hs₂, hfs]
      rcases timestampLengths.findSome? (tryTimestampLen s₂) with _ | r
      · rfl
      · rfl

/-- Witness for C10: the worked example's payload next to a payload with
a different entropy tail decodes to the same timestamp and date. -/
theorem c10_first15_determines_witness :
    parsedCore (parsePermalink ("126b07d4957507b123456789".toList)) =
      parsedCore (parsePermalink ("126b07d4957507bfffffffff".toList)) :=
  c10_first15_determines _ _ (by decide) (by decide) (by decide)

/-! ### Candidate-acceptance lemmas and claim C3 -/

/-- The claim's reading of acceptance: constructing the date and reading
the year, month and day back reproduces those digit groups exactly. -/
def ymdReadsBack (dec : List Char) : Prop :=
  natToDec (tempDateOf dec).year.toNat = dec.take 4 ∧
  padStart 2 '0' (natToDec (tempDateOf dec).month) = (dec.drop 4).take 2 ∧
  padStart 2 '0' (natToDec (tempDateOf dec).day) = (dec.drop 6).take 2

instance (dec : List Char) : Decidable (ymdReadsBack dec) := by
  unfold ymdReadsBack
  infer_instance

theorem valFold_lt (b : Nat) (v : Char → Nat) (l : List Char) (hb : 1 ≤ b)
    (h : ∀ c ∈ l, v c < b) : valFold b v l < b ^ l.length := by
  induction l with
  | nil => simp [valFold]
  | cons c t ih =>
    have hc := h c (List.mem_cons_self c t)
    have ht := ih fun c' hc' => h c' (List.mem_cons_of_mem c hc')
    rw [valFold, List.foldl_cons, valFold_cons_from]
    simp only [List.length_cons, pow_succ, Nat.mul_zero, Nat.zero_add]
    have key : (v c + 1) * b ^ t.length ≤ b ^ t.length * b :=
      le_of_le_of_eq (Nat.mul_le_mul_right _ (by omega)) (Nat.mul_comm b _)
    have expand : (v c + 1) * b ^ t.length = v c * b ^ t.length + b ^ t.length := by
      ring
    omega

theorem decVal_lt_pow (l : List Char) (h : ∀ c ∈ l, isDecDigit c = true) :
    decVal l < 10 ^ l.length := by
  refine valFold_lt 10 decCharVal l (by omega) fun c hc => ?_
  have := h c hc
  simp only [isDecDigit, decide_eq_true_eq] at this
  simp only [decCharVal]
  omega

theorem decVal_cons_ge (c : Char) (t : List Char) (h : c ≠ '0')
    (hd : isDecDigit c = true) : 10 ^ t.length ≤ decVal (c :: t) := by
  have hge : 1 ≤ decCharVal c := by
    simp only [isDecDigit, decide_eq_true_eq] at hd
    have h48 : c.toNat ≠ 48 :=
      fun h48 => h (by rw [← Char.ofNat_toNat c, h48])
    simp only [decCharVal]
    omega
  rw [decVal, valFold, List.foldl_cons, valFold_cons_from]
  simp only [Nat.mul_zero, Nat.zero_add]
  have key : 1 * 10 ^ t.length ≤ decCharVal c * 10 ^ t.length :=
    Nat.mul_le_mul_right _ hge
  simp only [Nat.one_mul] at key
  omega

theorem decVal_replicate_zero_append (k : Nat) (l : List Char) :
    decVal (List.replicate k '0' ++ l) = decVal l := by
  induction k with
  | zero => rfl
  | succ n ih =>
    rw [List.replicate_succ, List.cons_append, decVal, valFold, List.foldl_cons]
    have : (10 * 0 + decCharVal '0') = 0 := rfl
    rw [this]
    exact ih

theorem decVal_padStart (k : Nat) (l : List Char) :
    decVal (padStart k '0' l) = decVal l :=
  decVal_replicate_zero_append (k - l.length) l

/-- Canonical two-digit groups: padding the re-rendering of the value of
a two-digit-character group gives the group back. -/
theorem pad2_natToDec_decVal (a b : Char)
    (ha : isDecDigit a = true) (hb : isDecDigit b = true) :
    padStart 2 '0' (natToDec (decVal [a, b])) = [a, b] := by
  by_cases h0 : a = '0'
  · subst h0
    have hv : decVal ['0', b] = decVal [b] := by
      have := decVal_replicate_zero_append 1 [b]
      simpa using this
    rw [hv]
    have hrender : natToDec (decVal [b]) = [b] := by
      by_cases hb0 : b = '0'
      · subst hb0; rfl
      · exact natToDec_decVal [b] (by simp)
          (by intro c hc; simp at hc; subst hc; exact hb)
          (by intro c hc; injection hc with hc; subst hc; exact hb0)
    rw [hrender]
    rfl
  · have hrender : natToDec (decVal [a, b]) = [a, b] := by
      refine natToDec_decVal [a, b] (by simp) ?_ ?_
      · intro c hc
        simp at hc
        rcases hc with rfl | rfl
        · exact ha
        · exact hb
      · intro c hc
        injection hc with hc
        subst hc
        exact h0
    rw [hrender]
    have hlen : ([a, b] : List Char).length = 2 := rfl
    rw [padStart, hlen]
    rfl

theorem fixDays_year_ge : ∀ (f : Nat) (y : Int) (m : Nat) (d : Int),
    y - f ≤ (fixDays f y m d).1 := by
  intro f
  induction f with
  | zero => intro y m d; simp [fixDays]
  | succ f ih =>
    intro y m d
    rw [fixDays]
    by_cases h1 : d < 1
    · rw [if_pos h1]
      have := ih (if m = 0 then y - 1 else y) (if m = 0 then 11 else m - 1)
        (d + daysInMonth (if m = 0 then y - 1 else y) (if m = 0 then 11 else m - 1))
      by_cases hm : m = 0
      · simp only [hm, if_pos rfl] at this ⊢
        push_cast at this ⊢
        omega
      · simp only [if_neg hm] at this ⊢
        push_cast at this ⊢
        omega
    · rw [if_neg h1]
      by_cases h2 : (daysInMonth y m : Int) < d
      · rw [if_pos h2]
        have := ih (if m = 11 then y + 1 else y) (if m = 11 then 0 else m + 1)
          (d - daysInMonth y m)
        by_cases hm : m = 11
        · simp only [hm, if_pos rfl] at this ⊢
          push_cast at this ⊢
          omega
        · simp only [if_neg hm] at this ⊢
          push_cast at this ⊢
          omega
      · rw [if_neg h2]
        simp
        omega

theorem fixDays_month_lt : ∀ (f : Nat) (y : Int) (m : Nat) (d : Int),
    m < 12 → (fixDays f y m d).2.1 < 12 := by
  intro f
  induction f with
  | zero => intro y m d hm; exact hm
  | succ f ih =>
    intro y m d hm
    rw [fixDays]
    by_cases h1 : d < 1
    · rw [if_pos h1]
      refine ih _ _ _ (by by_cases hm0 : m = 0 <;> simp [hm0] <;> omega)
    · rw [if_neg h1]
      by_cases h2 : (daysInMonth y m : Int) < d
      · rw [if_pos h2]
        refine ih _ _ _ (by by_cases hm11 : m = 11 <;> simp [hm11] <;> omega)
      · rw [if_neg h2]
        exact hm

theorem c7_no_anchor_iff_witness :
    processPathCore ("/home/u/xyz/aa".toList) [("aa".toList, "y".toList)] =
      .error .noAnchor ∧
    processPathCore ("/home/u/sdoc/aa".toList) [("aa".toList, "y".toList)] =
      (mapSegments [("aa".toList, "y".toList)]
        (splitSep '/' (("/home/u/sdoc/aa".toList).drop 8))).map joinSlash := by
  constructor
  · refine (c7_no_anchor_iff ("/home/u/xyz/aa".toList)
      [("aa".toList, "y".toList)]).1.mpr ?_
    intro i
    by_cases hi : i < 14
    · interval_cases i <;> decide
    · intro hpre
      have hlen : ("/home/u/xyz/aa".toList).length = 14 := rfl
      have hnil : ("/home/u/xyz/aa".toList).drop i = [] :=
        List.drop_eq_nil_of_le (by rw [hlen]; omega)
      rw [hnil] at hpre
      exact absurd hpre (by decide)
  · exact (c7_no_anchor_iff ("/home/u/sdoc/aa".toList)
      [("aa".toList, "y".toList)]).2 8 (by decide)

/-! ### The probe-date bridge: the decoder's numeric acceptance test is
the year/month/day read-back property -/

theorem exists_pair_of_length_two (l : List Char) (h : l.length = 2) :
    ∃ g1 g2, l = [g1, g2] := by
  match l with
  | [g1, g2] => exact ⟨g1, g2, rfl⟩
  | [] => simp only [List.length_nil] at h; omega
  | [g1] => simp only [List.length_cons, List.length_nil] at h; omega
  | g1 :: g2 :: g3 :: t => simp only [List.length_cons] at h; omega

/-- The probe date of a (≤ 9999)-year, two-digit-bounded input has a
nonnegative year: the day/month normalization moves the year by at most
one per fuel step and the fuel is bounded by the (bounded) day total. -/
theorem jsMakeDate_year_nonneg (y mo d h mi s : Nat)
    (hy1 : 1000 ≤ y) (hy2 : y ≤ 9999) (hmo : mo < 100) (hd : d < 100)
    (hh : h < 100) (hmi : mi < 100) (hs : s < 100) :
    0 ≤ (jsMakeDate y mo d h mi s 0).year := by
  rw [jsMakeDate]
  have hy99 : ¬ y ≤ 99 := by omega
  simp only [if_neg hy99]
  refine le_trans ?_ (fixDays_year_ge _ _ _ _)
  omega

theorem accept_iff_readsBack (a : Char) (r : List Char) (hr : r.length = 13)
    (ha0 : a ≠ '0') (hd : ∀ c ∈ a :: r, isDecDigit c = true) :
    acceptNumeric (a :: r) ↔ ymdReadsBack (a :: r) := by
  have htake4 : (a :: r).take 4 = a :: r.take 3 := rfl
  have hdig4 : ∀ c ∈ (a :: r).take 4, isDecDigit c = true :=
    fun c hc => hd c (List.mem_of_mem_take hc)
  have hdigG : ∀ k : Nat, ∀ c ∈ ((a :: r).drop k).take 2, isDecDigit c = true :=
    fun k c hc => hd c (List.mem_of_mem_drop (List.mem_of_mem_take hc))
  have hy_lo : 1000 ≤ decVal ((a :: r).take 4) := by
    rw [htake4]
    have h3 : (r.take 3).length = 3 := by
      rw [List.length_take]; omega
    have hge := decVal_cons_ge a (r.take 3) ha0 (hd a (List.mem_cons_self a r))
    rw [h3] at hge
    norm_num at hge
    exact hge
  have hy_hi : decVal ((a :: r).take 4) < 10000 := by
    have hlen4 : ((a :: r).take 4).length = 4 := by
      rw [List.length_take, List.length_cons]; omega
    have hlt := decVal_lt_pow ((a :: r).take 4) hdig4
    rw [hlen4] at hlt
    norm_num at hlt
    exact hlt
  have hG : ∀ k : Nat, decVal (((a :: r).drop k).take 2) < 100 := by
    intro k
    have hlt := decVal_lt_pow (((a :: r).drop k).take 2) (hdigG k)
    have hle2 : (((a :: r).drop k).take 2).length ≤ 2 := List.length_take_le _ _
    have := lt_of_lt_of_le hlt (Nat.pow_le_pow_right (by omega) hle2)
    norm_num at this
    exact this
  have hynn : 0 ≤ (tempDateOf (a :: r)).year := by
    rw [tempDateOf]
    exact jsMakeDate_year_nonneg _ _ _ _ _ _ hy_lo (by omega)
      (hG 4) (hG 6) (hG 8) (hG 10) (hG 12)
  have hyear : ((tempDateOf (a :: r)).year = (decVal ((a :: r).take 4) : Int)) ↔
      natToDec ((tempDateOf (a :: r)).year.toNat) = (a :: r).take 4 := by
    constructor
    · intro he
      rw [he, Int.toNat_natCast]
      refine natToDec_decVal _ ?_ hdig4 ?_
      · rw [htake4]; exact List.cons_ne_nil a (r.take 3)
      · intro c hc
        rw [htake4] at hc
        simp only [List.head?_cons, Option.some.injEq] at hc
        rw [← hc]
        exact ha0
    · intro he
      have h1 : (tempDateOf (a :: r)).year.toNat = decVal ((a :: r).take 4) := by
        have h2 := congrArg decVal he
        rwa [decVal_natToDec] at h2
      omega
  have hmonth : ((tempDateOf (a :: r)).month = decVal (((a :: r).drop 4).take 2)) ↔
      padStart 2 '0' (natToDec (tempDateOf (a :: r)).month) =
        ((a :: r).drop 4).take 2 := by
    obtain ⟨g1, g2, hg⟩ := exists_pair_of_length_two (((a :: r).drop 4).take 2)
      (by rw [List.length_take, List.length_drop, List.length_cons]; omega)
    have hg1 : isDecDigit g1 = true :=
      hdigG 4 g1 (by rw [hg]; exact List.mem_cons_self _ _)
    have hg2 : isDecDigit g2 = true :=
      hdigG 4 g2 (by rw [hg]; exact List.mem_cons_of_mem _ (List.mem_cons_self _ _))
    constructor
    · intro he
      rw [he, hg]
      exact pad2_natToDec_decVal g1 g2 hg1 hg2
    · intro he
      have h2 := congrArg decVal he
      rwa [decVal_padStart, decVal_natToDec] at h2
  have hday : ((tempDateOf (a :: r)).day = decVal (((a :: r).drop 6).take 2)) ↔
      padStart 2 '0' (natToDec (tempDateOf (a :: r)).day) =
        ((a :: r).drop 6).take 2 := by
    obtain ⟨g1, g2, hg⟩ := exists_pair_of_length_two (((a :: r).drop 6).take 2)
      (by rw [List.length_take, List.length_drop, List.length_cons]; omega)
    have hg1 : isDecDigit g1 = true :=
      hdigG 6 g1 (by rw [hg]; exact List.mem_cons_self _ _)
    have hg2 : isDecDigit g2 = true :=
      hdigG 6 g2 (by rw [hg]; exact List.mem_cons_of_mem _ (List.mem_cons_self _ _))
    constructor
    · intro he
      rw [he, hg]
      exact pad2_natToDec_decVal g1 g2 hg1 hg2
    · intro he
      have h2 := congrArg decVal he
      rwa [decVal_padStart, decVal_natToDec] at h2
  unfold acceptNumeric ymdReadsBack
  exact and_congr hyear (and_congr hmonth hday)

theorem accept_iff_readsBack_natToDec (v : Nat)
    (h14 : (natToDec v).length = 14) :
    acceptNumeric (natToDec v) ↔ ymdReadsBack (natToDec v) := by
  have hv0 : v ≠ 0 := by
    intro h0
    rw [h0] at h14
    have h1 : (natToDec 0).length = 1 := rfl
    omega
  obtain ⟨a, r, hcons⟩ := List.exists_cons_of_ne_nil (natToDec_ne_nil v)
  have h14' := h14
  rw [hcons, List.length_cons] at h14'
  have hr : r.length = 13 := by omega
  have ha0 : a ≠ '0' := natToDec_head_ne_zero v hv0 a (by rw [hcons]; rfl)
  have hd : ∀ c ∈ a :: r, isDecDigit c = true := by
    rw [← hcons]; exact natToDec_all_digits v
  rw [hcons]
  exact accept_iff_readsBack a r hr ha0 hd

/-- **C3** (amended).  The decoder tries the candidate timestamp-hex
lengths 12, 11, 10, 9, 8, longest first.  A candidate length is accepted
exactly when the hex prefix of that length parses and its decimal
rendering is exactly 14 digits whose *year, month and day* groups survive
the probe-date read-back (`getFullYear`/`getMonth`/`getDate`); the hour,
minute and second groups are *not* validated and may normalize silently.
On acceptance the next 3 characters are parsed as the millisecond field
of the final date object and the search stops at that (longest accepted)
length. -/
theorem c3_acceptance (hexStr : List Char) (len : Nat)
    (hlen : len ∈ timestampLengths) :
    ((tryTimestampLen hexStr len).isSome = true ↔
      ∃ v, hexVal? (hexStr.take len) = some v ∧ (natToDec v).length = 14 ∧
        ymdReadsBack (natToDec v)) ∧
    (∀ dec fields mval, tryTimestampLen hexStr len = some (dec, fields) →
      jsParseIntHex ((hexStr.drop len).take 3) = some mval →
      fields = some (jsMakeDate (decVal (dec.take 4)) (decVal ((dec.drop 4).take 2))
        (decVal ((dec.drop 6).take 2)) (decVal ((dec.drop 8).take 2))
        (decVal ((dec.drop 10).take 2)) (decVal ((dec.drop 12).take 2)) mval)) ∧
    (∀ res, tryTimestampLen hexStr len = some res →
      (∀ len', len' ∈ timestampLengths → len < len' →
        tryTimestampLen hexStr len' = none) →
      timestampLengths.findSome? (tryTimestampLen hexStr) = some res) := by
  refine ⟨?_, ?_, ?_⟩
  · rcases hv : hexVal? (hexStr.take len) with _ | v
    · simp only [tryTimestampLen, hv]
      simp
    · simp only [tryTimestampLen, hv]
      by_cases h14 : (natToDec v).length = 14
      · by_cases hacc : acceptNumeric (natToDec v)
        · rw [if_pos h14, if_pos hacc]
          exact iff_of_true rfl
            ⟨v, rfl, h14, (accept_iff_readsBack_natToDec v h14).mp hacc⟩
        · rw [if_pos h14, if_neg hacc]
          refine iff_of_false (by simp) ?_
          rintro ⟨v', hv', h14', hymd⟩
          injection hv' with hv'
          subst hv'
          exact hacc ((accept_iff_readsBack_natToDec v h14).mpr hymd)
      · rw [if_neg h14]
        refine iff_of_false (by simp) ?_
        rintro ⟨v', hv', h14', hymd⟩
        injection hv' with hv'
        subst hv'
        exact h14 h14'
  · intro dec fields mval hm hp
    rcases hv : hexVal? (hexStr.take len) with _ | v
    · simp only [tryTimestampLen, hv] at hm
      exact absurd hm (by simp)
    · simp only [tryTimestampLen, hv] at hm
      split_ifs at hm with h14 hacc
      simp only [Option.some.injEq, Prod.mk.injEq] at hm
      obtain ⟨hdec, hfields⟩ := hm
      subst hdec
      rw [← hfields, hp]
      rfl
  · intro res hsome hlater
    simp only [timestampLengths, List.mem_cons, List.not_mem_nil, or_false] at hlen
    rcases hlen with rfl | rfl | rfl | rfl | rfl
    · simp only [timestampLengths, List.findSome?_cons, hsome]
    · have h12 := hlater 12 (by decide) (by omega)
      simp only [timestampLengths, List.findSome?_cons, h12, hsome]
    · have h12 := hlater 12 (by decide) (by omega)
      have h11 := hlater 11 (by decide) (by omega)
      simp only [timestampLengths, List.findSome?_cons, h12, h11, hsome]
    · have h12 := hlater 12 (by decide) (by omega)
      have h11 := hlater 11 (by decide) (by omega)
      have h10 := hlater 10 (by decide) (by omega)
      simp only [timestampLengths, List.findSome?_cons, h12, h11, h10, hsome]
    · have h12 := hlater 12 (by decide) (by omega)
      have h11 := hlater 11 (by decide) (by omega)
      have h10 := hlater 10 (by decide) (by omega)
      have h9 := hlater 9 (by decide) (by omega)
      simp only [timestampLengths, List.findSome?_cons, h12, h11, h10, h9, hsome]

theorem c3_acceptance_witness :
    (tryTimestampLen ("126b07d4957507b123456789".toList) 12).isSome = true :=
  (c3_acceptance ("126b07d4957507b123456789".toList) 12 (by decide)).1.mpr
    ⟨20250902173045, by decide, by decide, by decide⟩

/-- Claim C3 as stated is false on its full-field read-back requirement:
the payload `126ad8154b2c000000000000` has the decimal timestamp
`20250101107500`, whose minute group is `75`; a minute of 75 cannot
survive a read-back (the probe date normalizes it to 11:15), yet the
decoder accepts it, because only year, month and day are compared. -/
theorem c3_counterexample :
    parsePermalink ("126ad8154b2c000000000000".toList) =
      .ok ⟨"126ad8154b2c000000000000".toList, "20250101107500".toList,
        some ⟨2025, 1, 1, 11, 15, 0, 0⟩⟩ ∧
    ("20250101107500".toList.drop 10).take 2 = ['7', '5'] ∧
    padStart 2 '0' (natToDec (tempDateOf ("20250101107500".toList)).minutes) ≠
      ("20250101107500".toList.drop 10).take 2 := by
  refine ⟨?_, rfl, ?_⟩
  · rfl
  · decide

/-! ### Claim C8: decode failure conditions -/

/-- **C8** (amended).  After stripping a leading slash and a known prefix
segment, the decoder fails with the permalink format error for every
input whose *length* is not exactly 24 — hexadecimality is not part of
that check — and fails with the no-timestamp error when every candidate
timestamp length from 12 down to 8 is rejected; in particular
`decode("not-24-hex")` raises the format error. -/
theorem c8_decode_failures (p : List Char) :
    ((stripPermalink p).length ≠ 24 → parsePermalink p = .error .badFormat) ∧
    ((stripPermalink p).length = 24 →
      (∀ len ∈ timestampLengths, tryTimestampLen (stripPermalink p) len = none) →
      parsePermalink p = .error .noTimestamp) ∧
    parsePermalink ("not-24-hex".toList) = .error .badFormat := by
  refine ⟨?_, ?_, rfl⟩
  · intro h
    rw [parsePermalink, if_neg h]
  · intro h24 hnone
    rw [parsePermalink, if_pos h24]
    rcases hfs : timestampLengths.findSome? (tryTimestampLen (stripPermalink p))
        with _ | r
    · rfl
    · obtain ⟨len, hmem, hsome⟩ := List.exists_of_findSome?_eq_some hfs
      rw [hnone len hmem] at hsome
      exact absurd hsome (by simp)

theorem c8_decode_failures_witness :
    parsePermalink ("ffffffffffffffffffffffff".toList) = .error .noTimestamp :=
  (c8_decode_failures ("ffffffffffffffffffffffff".toList)).2.1
    (by decide) (by decide)

/-- Claim C8 as stated is false about hexadecimality: the 24-character
string `126b07d4957507bzzzzzzzzz` is not made of hexadecimal characters
(`z` is not one), yet the decoder does not fail — the trailing characters
are never validated and decoding succeeds. -/
theorem c8_counterexample :
    ('z' ∈ "126b07d4957507bzzzzzzzzz".toList ∧ hexCharVal? 'z' = none) ∧
    parsePermalink ("126b07d4957507bzzzzzzzzz".toList) =
      .ok ⟨"126b07d4957507bzzzzzzzzz".toList, "20250902173045".toList,
        some ⟨2025, 9, 2, 17, 30, 45, 123⟩⟩ := by
  exact ⟨⟨by decide, rfl⟩, rfl⟩

/-! ### Hex-parsing lemmas for the round-trip claim -/

theorem natToDec_length_le (n k : Nat) (hk : 1 ≤ k) (h : n < 10 ^ k) :
    (natToDec n).length ≤ k := by
  by_cases hn : n = 0
  · subst hn
    have h1 : (natToDec 0).length = 1 := rfl
    omega
  · rw [natToDec, natToBase_length 10 n (by omega) hn]
    exact digits_length_le 10 n k (by omega) h

theorem padStart_zero_digits (k : Nat) (l : List Char)
    (h : ∀ c ∈ l, isDecDigit c = true) :
    ∀ c ∈ padStart k '0' l, isDecDigit c = true := by
  intro c hc
  rcases List.mem_append.mp hc with h1 | h1
  · rw [List.eq_of_mem_replicate h1]; rfl
  · exact h c h1

theorem timestampStr_all_digits (t : TimePoint) :
    ∀ c ∈ timestampStr t, isDecDigit c = true := by
  intro c hc
  rw [timestampStr] at hc
  simp only [List.append_assoc, List.mem_append] at hc
  rcases hc with h | h | h | h | h | h
  · exact natToDec_all_digits t.year c h
  · exact padStart_zero_digits 2 _ (natToDec_all_digits t.month) c h
  · exact padStart_zero_digits 2 _ (natToDec_all_digits t.day) c h
  · exact padStart_zero_digits 2 _ (natToDec_all_digits t.hours) c h
  · exact padStart_zero_digits 2 _ (natToDec_all_digits t.minutes) c h
  · exact padStart_zero_digits 2 _ (natToDec_all_digits t.seconds) c h

theorem hexVal?_guard (l : List Char) (v : Nat) (h : hexVal? l = some v) :
    l ≠ [] ∧ ∀ c ∈ l, (hexCharVal? c).isSome = true := by
  rw [hexVal?] at h
  split_ifs at h with hg
  push_neg at hg
  exact hg

theorem valFold_of_hexVal? (l : List Char) (v : Nat) (h : hexVal? l = some v) :
    valFold 16 hexCharVal l = v := by
  rw [hexVal?] at h
  split_ifs at h
  injection h with h

theorem hexVal?_of_all (l : List Char) (hne : l ≠ [])
    (hall : ∀ c ∈ l, (hexCharVal? c).isSome = true) :
    hexVal? l = some (valFold 16 hexCharVal l) := by
  rw [hexVal?, if_neg]
  push_neg
  exact ⟨hne, hall⟩

theorem valFold_hex_replicate_zero (j : Nat) (l : List Char) :
    valFold 16 hexCharVal (List.replicate j '0' ++ l) =
      valFold 16 hexCharVal l := by
  induction j with
  | zero => rfl
  | succ n ih =>
    rw [List.replicate_succ, List.cons_append, valFold, List.foldl_cons]
    have h0 : (16 * 0 + hexCharVal '0') = 0 := rfl
    rw [h0]
    exact ih

theorem hexVal?_zero_pad (j : Nat) (l : List Char) (v : Nat)
    (h : hexVal? l = some v) :
    hexVal? (List.replicate j '0' ++ l) = some v := by
  obtain ⟨hne, hall⟩ := hexVal?_guard l v h
  have hall' : ∀ c ∈ List.replicate j '0' ++ l, (hexCharVal? c).isSome = true := by
    intro c hc
    rcases List.mem_append.mp hc with h1 | h1
    · rw [List.eq_of_mem_replicate h1]; rfl
    · exact hall c h1
  have hne' : List.replicate j '0' ++ l ≠ [] := by
    simp [hne]
  rw [hexVal?_of_all _ hne' hall', valFold_hex_replicate_zero,
    valFold_of_hexVal? l v h]

theorem hexVal?_millisHexStr (t : TimePoint) :
    hexVal? (millisHexStr t) = some t.millis := by
  rw [millisHexStr, padStart]
  exact hexVal?_zero_pad _ _ _ (hexVal?_natToHex t.millis)

theorem isSome_hexCharVal?_of_lower (c : Char) (h : isLowerHexChar c = true) :
    (hexCharVal? c).isSome = true := by
  simp only [isLowerHexChar, decide_eq_true_eq] at h
  rw [hexCharVal?]
  rcases h with h | h
  · rw [if_pos h]; rfl
  · rw [if_neg (by omega), if_pos h]; rfl

theorem hexCharVal?_lt (c : Char) (w : Nat) (h : hexCharVal? c = some w) :
    w < 16 := by
  rw [hexCharVal?] at h
  split_ifs at h with h1 h2 h3
  · injection h with h; omega
  · injection h with h; omega
  · injection h with h; omega

theorem jsParseSign_of_ne (c : Char) (t : List Char)
    (h1 : c ≠ '-') (h2 : c ≠ '+') : jsParseSign (c :: t) = (1, c :: t) := by
  unfold jsParseSign
  split
  · next r heq =>
    injection heq with ha hb
    exact absurd ha h1
  · next r heq =>
    injection heq with ha hb
    exact absurd ha h2
  · rfl

theorem jsStripHexMark_of_all_hex (c : Char) (t : List Char)
    (h : ∀ x ∈ c :: t, (hexCharVal? x).isSome = true) :
    jsStripHexMark (c :: t) = c :: t := by
  unfold jsStripHexMark
  split
  · next r heq =>
    injection heq with h1 h2
    have hx := h 'x' (List.mem_cons_of_mem c (by rw [h2]; exact List.mem_cons_self _ _))
    exact absurd hx (by decide)
  · next r heq =>
    injection heq with h1 h2
    have hx := h 'X' (List.mem_cons_of_mem c (by rw [h2]; exact List.mem_cons_self _ _))
    exact absurd hx (by decide)
  · rfl

/-- `parseInt(s, 16)` on a nonempty lowercase-hex string agrees with
`BigInt('0x' + s)`. -/
theorem jsParseIntHex_of_hexVal (l : List Char) (v : Nat)
    (hx : ∀ c ∈ l, isLowerHexChar c = true) (h : hexVal? l = some v) :
    jsParseIntHex l = some (v : Int) := by
  obtain ⟨hne, hall⟩ := hexVal?_guard l v h
  obtain ⟨c, t, rfl⟩ := List.exists_cons_of_ne_nil hne
  have hc := hx c (List.mem_cons_self c t)
  have hcs : isJsSpace c = false := by
    cases hsp : isJsSpace c
    · rfl
    · exfalso
      simp only [isJsSpace, decide_eq_true_eq] at hsp
      rcases hsp with rfl | rfl | rfl | rfl | rfl | rfl <;> exact absurd hc (by decide)
  have hminus : c ≠ '-' := by
    intro hcm; rw [hcm] at hc; exact absurd hc (by decide)
  have hplus : c ≠ '+' := by
    intro hcm; rw [hcm] at hc; exact absurd hc (by decide)
  have hdw : (c :: t).dropWhile isJsSpace = c :: t := by
    rw [List.dropWhile_cons, hcs]
    simp only [Bool.false_eq_true, if_false]
  have hsign : jsParseSign ((c :: t).dropWhile isJsSpace) = (1, c :: t) := by
    rw [hdw]
    exact jsParseSign_of_ne c t hminus hplus
  have hmark : jsStripHexMark (jsParseSign ((c :: t).dropWhile isJsSpace)).2 =
      c :: t := by
    rw [hsign]
    exact jsStripHexMark_of_all_hex c t hall
  have htw : (c :: t).takeWhile (fun x => (hexCharVal? x).isSome) = c :: t :=
    List.takeWhile_eq_self_iff.mpr (by simpa using hall)
  rw [jsParseIntHex, hmark, htw, hsign]
  rw [if_neg (List.cons_ne_nil c t)]
  rw [valFold_of_hexVal? _ _ h]
  simp

theorem daysInMonth_le_31 (y : Int) (m : Nat) : daysInMonth y m ≤ 31 := by
  rcases m with _ | _ | _ | _ | _ | _ | _ | _ | _ | _ | _ | n
  · exact le_refl _
  · show (if isLeapYear y then (29:Nat) else 28) ≤ 31
    split <;> omega
  · exact le_refl _
  · show (30:Nat) ≤ 31; omega
  · exact le_refl _
  · show (30:Nat) ≤ 31; omega
  · exact le_refl _
  · exact le_refl _
  · show (30:Nat) ≤ 31; omega
  · exact le_refl _
  · show (30:Nat) ≤ 31; omega
  · exact le_refl _

/-- **C1**.  Round-trip: for every calendar date-time with millisecond
resolution whose 14-digit decimal `YYYYMMDDHHMMSS` form is genuinely 14
digits (year 1000–9999, in-range month/day/time fields — the hex form
then has 11 or 12 digits, far below the 21-digit overflow bound) and
every 32-character lowercase-hex entropy string, decoding the encoded
permalink succeeds and returns every field of the original time point,
milliseconds included. -/
theorem c1_roundtrip (t : TimePoint) (uuid : List Char) (b : Bool)
    (hy1 : 1000 ≤ t.year) (hy2 : t.year ≤ 9999)
    (hmo1 : 1 ≤ t.month) (hmo2 : t.month ≤ 12)
    (hd1 : 1 ≤ t.day) (hd2 : t.day ≤ daysInMonth (t.year : Int) (t.month - 1))
    (hh : t.hours ≤ 23) (hmi : t.minutes ≤ 59) (hs : t.seconds ≤ 59)
    (hms : t.millis ≤ 999)
    (hulen : uuid.length = 32) (huhex : ∀ c ∈ uuid, isLowerHexChar c = true) :
    parsePermalink ((generatePermalink t uuid b).permalink) =
      .ok ⟨(generatePermalink t uuid b).permalink, timestampStr t,
        some ⟨(t.year : Int), t.month, t.day, t.hours, t.minutes, t.seconds,
          t.millis⟩⟩ := by
  -- group lengths of the 14-digit timestamp string
  have hYlen : (natToDec t.year).length = 4 := by
    refine natToDec_length_eq t.year 3 ?_ ?_
    · have h3 : (10:Nat) ^ 3 = 1000 := by norm_num
      omega
    · have h4 : (10:Nat) ^ (3 + 1) = 10000 := by norm_num
      omega
  have h100 : (10:Nat) ^ 2 = 100 := by norm_num
  have hMOlen : (padStart 2 '0' (natToDec t.month)).length = 2 :=
    padStart_length 2 '0' _ (natToDec_length_le t.month 2 (by omega) (by omega))
  have hDlen : (padStart 2 '0' (natToDec t.day)).length = 2 :=
    padStart_length 2 '0' _ (natToDec_length_le t.day 2 (by omega) (by
      have hdim := daysInMonth_le_31 (t.year : Int) (t.month - 1)
      omega))
  have hHlen : (padStart 2 '0' (natToDec t.hours)).length = 2 :=
    padStart_length 2 '0' _ (natToDec_length_le t.hours 2 (by omega) (by omega))
  have hMIlen : (padStart 2 '0' (natToDec t.minutes)).length = 2 :=
    padStart_length 2 '0' _ (natToDec_length_le t.minutes 2 (by omega) (by omega))
  have hSlen : (padStart 2 '0' (natToDec t.seconds)).length = 2 :=
    padStart_length 2 '0' _ (natToDec_length_le t.seconds 2 (by omega) (by omega))
  have hts_eq : timestampStr t =
      natToDec t.year ++ (padStart 2 '0' (natToDec t.month) ++
        (padStart 2 '0' (natToDec t.day) ++ (padStart 2 '0' (natToDec t.hours) ++
          (padStart 2 '0' (natToDec t.minutes) ++
            padStart 2 '0' (natToDec t.seconds))))) := by
    rw [timestampStr]
    simp only [List.append_assoc]
  have htslen : (timestampStr t).length = 14 := by
    rw [hts_eq]
    simp only [List.length_append, hYlen, hMOlen, hDlen, hHlen, hMIlen, hSlen]
  -- group extraction
  have hg_y : (timestampStr t).take 4 = natToDec t.year := by
    rw [hts_eq]; exact List.take_left' hYlen
  have hdrop4 : (timestampStr t).drop 4 =
      padStart 2 '0' (natToDec t.month) ++
        (padStart 2 '0' (natToDec t.day) ++ (padStart 2 '0' (natToDec t.hours) ++
          (padStart 2 '0' (natToDec t.minutes) ++
            padStart 2 '0' (natToDec t.seconds)))) := by
    rw [hts_eq]; exact List.drop_left' hYlen
  have hg_mo : ((timestampStr t).drop 4).take 2 =
      padStart 2 '0' (natToDec t.month) := by
    rw [hdrop4]; exact List.take_left' hMOlen
  have hdrop6 : (timestampStr t).drop 6 =
      padStart 2 '0' (natToDec t.day) ++ (padStart 2 '0' (natToDec t.hours) ++
        (padStart 2 '0' (natToDec t.minutes) ++
          padStart 2 '0' (natToDec t.seconds))) := by
    have h62 : ((timestampStr t).drop 4).drop 2 = (timestampStr t).drop 6 := by
      rw [List.drop_drop]
    rw [← h62, hdrop4]
    exact List.drop_left' hMOlen
  have hg_d : ((timestampStr t).drop 6).take 2 =
      padStart 2 '0' (natToDec t.day) := by
    rw [hdrop6]; exact List.take_left' hDlen
  have hdrop8 : (timestampStr t).drop 8 =
      padStart 2 '0' (natToDec t.hours) ++
        (padStart 2 '0' (natToDec t.minutes) ++
          padStart 2 '0' (natToDec t.seconds)) := by
    have h82 : ((timestampStr t).drop 6).drop 2 = (timestampStr t).drop 8 := by
      rw [List.drop_drop]
    rw [← h82, hdrop6]
    exact List.drop_left' hDlen
  have hg_h : ((timestampStr t).drop 8).take 2 =
      padStart 2 '0' (natToDec t.hours) := by
    rw [hdrop8]; exact List.take_left' hHlen
  have hdrop10 : (timestampStr t).drop 10 =
      padStart 2 '0' (natToDec t.minutes) ++
        padStart 2 '0' (natToDec t.seconds) := by
    have ha2 : ((timestampStr t).drop 8).drop 2 = (timestampStr t).drop 10 := by
      rw [List.drop_drop]
    rw [← ha2, hdrop8]
    exact List.drop_left' hHlen
  have hg_mi : ((timestampStr t).drop 10).take 2 =
      padStart 2 '0' (natToDec t.minutes) := by
    rw [hdrop10]; exact List.take_left' hMIlen
  have hdrop12 : (timestampStr t).drop 12 =
      padStart 2 '0' (natToDec t.seconds) := by
    have hb2 : ((timestampStr t).drop 10).drop 2 = (timestampStr t).drop 12 := by
      rw [List.drop_drop]
    rw [← hb2, hdrop10]
    exact List.drop_left' hMIlen
  have hg_s : ((timestampStr t).drop 12).take 2 =
      padStart 2 '0' (natToDec t.seconds) := by
    rw [hdrop12]
    exact List.take_of_length_le (by omega)
  -- group values
  have hv_y : decVal ((timestampStr t).take 4) = t.year := by
    rw [hg_y]; exact decVal_natToDec t.year
  have hv_mo : decVal (((timestampStr t).drop 4).take 2) = t.month := by
    rw [hg_mo, decVal_padStart, decVal_natToDec]
  have hv_d : decVal (((timestampStr t).drop 6).take 2) = t.day := by
    rw [hg_d, decVal_padStart, decVal_natToDec]
  have hv_h : decVal (((timestampStr t).drop 8).take 2) = t.hours := by
    rw [hg_h, decVal_padStart, decVal_natToDec]
  have hv_mi : decVal (((timestampStr t).drop 10).take 2) = t.minutes := by
    rw [hg_mi, decVal_padStart, decVal_natToDec]
  have hv_s : decVal (((timestampStr t).drop 12).take 2) = t.seconds := by
    rw [hg_s, decVal_padStart, decVal_natToDec]
  -- timestamp value bounds and canonical rendering
  have hdigits := timestampStr_all_digits t
  have hne : timestampStr t ≠ [] := by
    intro h0
    rw [h0] at htslen
    exact absurd htslen (by decide)
  have hhead : ∀ c, (timestampStr t).head? = some c → c ≠ '0' := by
    intro c hc
    obtain ⟨a, r0, hY⟩ := List.exists_cons_of_ne_nil (natToDec_ne_nil t.year)
    have ha : (timestampStr t).head? = some a := by
      rw [hts_eq, hY]
      rfl
    rw [ha] at hc
    injection hc with hc
    rw [← hc]
    exact natToDec_head_ne_zero t.year (by omega) a (by rw [hY]; rfl)
  have hts_lo : 10 ^ 13 ≤ timestampVal t := by
    rw [timestampVal]
    obtain ⟨a, tl, hcons⟩ := List.exists_cons_of_ne_nil hne
    have h' := htslen
    rw [hcons, List.length_cons] at h'
    have htl : tl.length = 13 := by omega
    have hge := decVal_cons_ge a tl (hhead a (by rw [hcons]; rfl))
      (hdigits a (by rw [hcons]; exact List.mem_cons_self _ _))
    rw [htl] at hge
    rw [hcons]
    exact hge
  have hts_hi : timestampVal t < 10 ^ 14 := by
    rw [timestampVal]
    have hlt := decVal_lt_pow (timestampStr t) hdigits
    rw [htslen] at hlt
    exact hlt
  have hts_ne : timestampVal t ≠ 0 := by
    have hp : 0 < 10 ^ 13 := Nat.pow_pos (by omega : 0 < 10)
    omega
  have hnatdec : natToDec (timestampVal t) = timestampStr t := by
    rw [timestampVal]
    exact natToDec_decVal _ hne hdigits hhead
  have h14 : (natToDec (timestampVal t)).length = 14 := by
    rw [hnatdec]; exact htslen
  -- hex length is 11 or 12
  have hLle : (timestampHex t).length ≤ 12 := by
    rw [timestampHex]
    refine natToHex_length_le _ 12 hts_ne ?_
    have h16 : (10:Nat) ^ 14 ≤ 16 ^ 12 := by norm_num
    omega
  have hLge : 11 ≤ (timestampHex t).length := by
    by_contra hlt
    push_neg at hlt
    rw [timestampHex, natToHex, natToBase_length 16 _ (by omega) hts_ne] at hlt
    have hsmall := lt_pow_of_digits_length_le 16 (timestampVal t) 10 (by omega) (by omega)
    have h16 : (16:Nat) ^ 10 ≤ 10 ^ 13 := by norm_num
    omega
  -- the encoded identifier
  have hm3 := millisHexStr_length t hms
  have hfit : (timestampHex t).length + (millisHexStr t).length ≤ 24 := by omega
  have hid1 : (encodeCore t uuid).1 =
      timestampHex t ++ millisHexStr t ++
        uuid.take (24 - (timestampHex t).length - 3) := by
    rw [encodeCore_fit t uuid hms hulen hfit]
  have hidlen : (encodeCore t uuid).1.length = 24 := by
    rw [hid1]
    simp only [List.length_append, hm3, List.length_take, hulen]
    omega
  have hall_id : ∀ c ∈ (encodeCore t uuid).1, isLowerHexChar c = true := by
    rw [hid1]
    intro c hc
    rcases List.mem_append.mp hc with h1 | h1
    · rcases List.mem_append.mp h1 with h2 | h2
      · exact natToHex_all_lower _ c h2
      · exact millisHexStr_all_lower t c h2
    · exact huhex c (List.mem_of_mem_take h1)
  -- stripping the prefix recovers the identifier
  have hnd : ¬ ((PERMALINK_PREFIX ++ ['/']).isPrefixOf ((encodeCore t uuid).1) = true) := by
    intro hp
    rw [List.isPrefixOf_iff_prefix] at hp
    obtain ⟨rest, hrest⟩ := hp
    have ho : 'o' ∈ (encodeCore t uuid).1 := by
      rw [← hrest]
      exact List.mem_append_left rest (by decide)
    exact absurd (hall_id 'o' ho) (by decide)
  have hstrip : stripPermalink ((generatePermalink t uuid b).permalink) =
      (encodeCore t uuid).1 := by
    rcases b with _ | _
    · show stripPermalink ('/' :: (encodeCore t uuid).1) = (encodeCore t uuid).1
      rw [stripPermalink]
      have hss : stripSlash ('/' :: (encodeCore t uuid).1) =
          (encodeCore t uuid).1 := rfl
      rw [hss, stripDocs, if_neg hnd]
    · show stripPermalink ('/' :: (PERMALINK_PREFIX ++ '/' :: (encodeCore t uuid).1)) =
        (encodeCore t uuid).1
      rw [stripPermalink]
      have hss : stripSlash ('/' :: (PERMALINK_PREFIX ++ '/' :: (encodeCore t uuid).1)) =
          PERMALINK_PREFIX ++ '/' :: (encodeCore t uuid).1 := rfl
      rw [hss, stripDocs]
      have hsplit : PERMALINK_PREFIX ++ '/' :: (encodeCore t uuid).1 =
          (PERMALINK_PREFIX ++ ['/']) ++ (encodeCore t uuid).1 := by
        simp
      have hpre : (PERMALINK_PREFIX ++ ['/']).isPrefixOf
          (PERMALINK_PREFIX ++ '/' :: (encodeCore t uuid).1) = true := by
        rw [List.isPrefixOf_iff_prefix, hsplit]
        exact List.prefix_append _ _
      rw [if_pos hpre, hsplit]
      exact List.drop_left' (by decide)
  -- the probe date reads the groups back
  have htd : tempDateOf (timestampStr t) =
      ⟨(t.year : Int), t.month, t.day, t.hours, t.minutes, t.seconds, 0⟩ := by
    rw [tempDateOf, hv_y, hv_mo, hv_d, hv_h, hv_mi, hv_s]
    have hmk := jsMakeDate_id t.year t.month t.day t.hours t.minutes t.seconds 0
      (by omega) hmo1 hmo2 hd1 hd2 hh hmi hs (by omega)
    rw [Nat.cast_zero] at hmk
    exact hmk
  have hacc : acceptNumeric (natToDec (timestampVal t)) := by
    rw [hnatdec]
    refine ⟨?_, ?_, ?_⟩
    · simp only [htd, hv_y]
    · simp only [htd, hv_mo]
    · simp only [htd, hv_d]
  have hmsparse : jsParseIntHex (millisHexStr t) = some (t.millis : Int) :=
    jsParseIntHex_of_hexVal _ _ (millisHexStr_all_lower t) (hexVal?_millisHexStr t)
  have hmk2 := jsMakeDate_id t.year t.month t.day t.hours t.minutes t.seconds
    t.millis (by omega) hmo1 hmo2 hd1 hd2 hh hmi hs hms
  -- case split on the hex length
  have hL : (timestampHex t).length = 11 ∨ (timestampHex t).length = 12 := by
    omega
  rcases hL with hL11 | hL12
  · -- 11 hex digits: the length-12 candidate parses a 15-digit decimal
    obtain ⟨m0, mr, hMS⟩ := List.exists_cons_of_ne_nil
      (show millisHexStr t ≠ [] by
        intro h0; rw [h0] at hm3; exact absurd hm3 (by decide))
    have htake12 : (encodeCore t uuid).1.take 12 = timestampHex t ++ [m0] := by
      rw [hid1, List.append_assoc]
      have h12 : 12 = (timestampHex t).length + 1 := by omega
      rw [h12, List.take_append, hMS, List.cons_append]
      rfl
    have hm0lower : isLowerHexChar m0 = true :=
      millisHexStr_all_lower t m0 (by rw [hMS]; exact List.mem_cons_self _ _)
    have hv12 : hexVal? ((encodeCore t uuid).1.take 12) =
        some (16 * timestampVal t + hexCharVal m0) := by
      rw [htake12]
      have hall : ∀ c ∈ timestampHex t ++ [m0], (hexCharVal? c).isSome = true := by
        intro c hc
        rcases List.mem_append.mp hc with h1 | h1
        · exact isSome_hexCharVal?_of_lower c (natToHex_all_lower _ c h1)
        · rw [List.mem_singleton.mp h1]
          exact isSome_hexCharVal?_of_lower m0 hm0lower
      have hne' : timestampHex t ++ [m0] ≠ [] := by simp
      rw [hexVal?_of_all _ hne' hall, valFold_append_singleton,
        valFold_of_hexVal? _ _ (by rw [timestampHex]; exact hexVal?_natToHex _)]
    have hts16 : timestampVal t < 16 ^ 11 := by
      have hL' := hL11
      rw [timestampHex, natToHex, natToBase_length 16 _ (by omega) hts_ne] at hL'
      exact lt_pow_of_digits_length_le 16 (timestampVal t) 11 (by omega) (by omega)
    have hw16 : hexCharVal m0 < 16 := by
      rcases hm0v : hexCharVal? m0 with _ | w
      · rw [hexCharVal, hm0v]
        decide
      · rw [hexCharVal, hm0v]
        simp only [Option.getD_some]
        exact hexCharVal?_lt m0 w hm0v
    have hv12big : (natToDec (16 * timestampVal t + hexCharVal m0)).length = 15 := by
      refine natToDec_length_eq _ 14 ?_ ?_
      · have hp : (10:Nat) ^ 14 ≤ 16 * 10 ^ 13 := by norm_num
        have hq : (10:Nat) ^ 13 ≤ timestampVal t := hts_lo
        omega
      · have h1 : (16:Nat) * 16 ^ 11 + 16 ≤ 10 ^ (14 + 1) := by norm_num
        omega
    have htry12 : tryTimestampLen ((encodeCore t uuid).1) 12 = none := by
      simp only [tryTimestampLen, hv12]
      rw [if_neg (show ¬ (natToDec (16 * timestampVal t + hexCharVal m0)).length = 14
        by rw [hv12big]; omega)]
    have htake11 : (encodeCore t uuid).1.take 11 = timestampHex t := by
      rw [hid1, List.append_assoc]
      exact List.take_left' hL11
    have hdrop11 : (encodeCore t uuid).1.drop 11 =
        millisHexStr t ++ uuid.take (24 - (timestampHex t).length - 3) := by
      rw [hid1, List.append_assoc]
      exact List.drop_left' hL11
    have hv11 : hexVal? ((encodeCore t uuid).1.take 11) = some (timestampVal t) := by
      rw [htake11, timestampHex]
      exact hexVal?_natToHex _
    have hmtake : ((encodeCore t uuid).1.drop 11).take 3 = millisHexStr t := by
      rw [hdrop11]
      exact List.take_left' hm3
    have htry11 : tryTimestampLen ((encodeCore t uuid).1) 11 =
        some (timestampStr t, some ⟨(t.year : Int), t.month, t.day, t.hours,
          t.minutes, t.seconds, t.millis⟩) := by
      simp only [tryTimestampLen, hv11]
      rw [if_pos h14, if_pos hacc]
      simp only [hnatdec, hv_y, hv_mo, hv_d, hv_h, hv_mi, hv_s, hmtake,
        hmsparse, Option.map_some']
      rw [hmk2]
    rw [parsePermalink, hstrip, if_pos hidlen]
    rw [show timestampLengths.findSome? (tryTimestampLen ((encodeCore t uuid).1)) =
        some (timestampStr t, some ⟨(t.year : Int), t.month, t.day, t.hours,
          t.minutes, t.seconds, t.millis⟩) by
      simp only [timestampLengths, List.findSome?_cons, htry12, htry11]]
  · -- 12 hex digits: the length-12 candidate is accepted directly
    have htake12 : (encodeCore t uuid).1.take 12 = timestampHex t := by
      rw [hid1, List.append_assoc]
      exact List.take_left' hL12
    have hdrop12' : (encodeCore t uuid).1.drop 12 =
        millisHexStr t ++ uuid.take (24 - (timestampHex t).length - 3) := by
      rw [hid1, List.append_assoc]
      exact List.drop_left' hL12
    have hv12 : hexVal? ((encodeCore t uuid).1.take 12) = some (timestampVal t) := by
      rw [htake12, timestampHex]
      exact hexVal?_natToHex _
    have hmtake : ((encodeCore t uuid).1.drop 12).take 3 = millisHexStr t := by
      rw [hdrop12']
      exact List.take_left' hm3
    have htry12 : tryTimestampLen ((encodeCore t uuid).1) 12 =
        some (timestampStr t, some ⟨(t.year : Int), t.month, t.day, t.hours,
          t.minutes, t.seconds, t.millis⟩) := by
      simp only [tryTimestampLen, hv12]
      rw [if_pos h14, if_pos hacc]
      simp only [hnatdec, hv_y, hv_mo, hv_d, hv_h, hv_mi, hv_s, hmtake,
        hmsparse, Option.map_some']
      rw [hmk2]
    rw [parsePermalink, hstrip, if_pos hidlen]
    rw [show timestampLengths.findSome? (tryTimestampLen ((encodeCore t uuid).1)) =
        some (timestampStr t, some ⟨(t.year : Int), t.month, t.day, t.hours,
          t.minutes, t.seconds, t.millis⟩) by
      simp only [timestampLengths, List.findSome?_cons, htry12]]

/-- Witness for C1 at the specification's worked example
(2025-09-02T17:30:45.123 with a fixed 32-hex-digit entropy string). -/
theorem c1_roundtrip_witness :
    parsePermalink ((generatePermalink ⟨2025, 9, 2, 17, 30, 45, 123⟩
        ("1234567890abcdef1234567890abcdef".toList) true).permalink) =
      .ok ⟨(generatePermalink ⟨2025, 9, 2, 17, 30, 45, 123⟩
          ("1234567890abcdef1234567890abcdef".toList) true).permalink,
        timestampStr ⟨2025, 9, 2, 17, 30, 45, 123⟩,
        some ⟨2025, 9, 2, 17, 30, 45, 123⟩⟩ :=
  c1_roundtrip ⟨2025, 9, 2, 17, 30, 45, 123⟩ _ true (by decide) (by decide)
    (by decide) (by decide) (by decide) (by decide) (by decide) (by decide)
    (by decide) (by decide) (by decide) (by decide)

end TdocCli
